import Mathlib

/-!
Verification development for the TorchMPS contraction engine
(src/torchmps.py).  The structural machinery of the adaptive engine
(core kinds, the merge/unmerge passes, the input counter, the
discriminated forward return) is embedded at the level of module kinds
and integer sizes: each PyTorch module class becomes a constructor of
an inductive type carrying the sizes that its methods consult
(number of stacked cores, the left/right flag of a merged output), and
each structural method becomes a Lean function on lists of those kinds.
Tensor values are carried only where a claim needs them (rational
entries for the contractable algebra, real norms for the rescale step).
-/

namespace TorchMPS

/-- Module kinds of torchmps.py, with the size data their structural
methods consult.  inputRegion n is an InputRegion whose tensor stacks n
single-input cores; mergedInput k is a MergedInput of k merged cores
(covering 2*k input sites); mergedOutput b is a MergedOutput with
left_output flag b. -/
inductive Core where
  | inputRegion : Nat → Core
  | inputSite : Core
  | outputSite : Core
  | mergedInput : Nat → Core
  | mergedOutput : Bool → Core
deriving DecidableEq

/-- Number of input sites a module consumes: the module __len__ methods.
InputRegion.__len__ is tensor.size(0); InputSite.__len__ is 1;
OutputSite.__len__ is 0; MergedInput.__len__ is 2 * tensor.size(0);
MergedOutput.__len__ is 1. -/
def Core.len : Core → Nat
  | Core.inputRegion n => n
  | Core.inputSite => 1
  | Core.outputSite => 0
  | Core.mergedInput k => 2 * k
  | Core.mergedOutput _ => 1

/-- The module core_len methods.  InputRegion.core_len and
MergedInput.core_len both return len(self); InputSite.core_len is 1;
OutputSite.core_len is 1; MergedOutput.core_len is 2. -/
def Core.coreLen : Core → Nat
  | Core.inputRegion n => n
  | Core.inputSite => 1
  | Core.outputSite => 1
  | Core.mergedInput k => 2 * k
  | Core.mergedOutput _ => 2

/-- LinearRegion.__len__: the sum of len(module) over the module list. -/
def chainLen (cs : List Core) : Nat := (cs.map Core.len).sum

/-- LinearRegion.core_len: the sum of module.core_len() over the module
list. -/
def chainCoreLen (cs : List Core) : Nat := (cs.map Core.coreLen).sum

/-- Whether a module is output-bearing (an OutputSite or a MergedOutput). -/
def Core.isOutputBearing : Core → Bool
  | Core.outputSite => true
  | Core.mergedOutput _ => true
  | _ => false

/-- Number of output-bearing modules in a chain. -/
def outputCount (cs : List Core) : Nat := cs.countP Core.isOutputBearing

/-- Whether a module is a merged core (a MergedInput or a MergedOutput). -/
def Core.isMergedCore : Core → Bool
  | Core.mergedInput _ => true
  | Core.mergedOutput _ => true
  | _ => false

/-- Whether a chain contains a merged core. -/
def chainHasMerged (cs : List Core) : Bool := cs.any Core.isMergedCore

/-- Whether a module is an InputRegion. -/
def Core.isInputRegion : Core → Bool
  | Core.inputRegion _ => true
  | _ => false

/-- Whether no module of the chain is an InputRegion. -/
def noInputRegion (cs : List Core) : Bool := cs.all (fun c => !(c.isInputRegion))

/-- The isinstance test of MergedLinearRegion.combine for the merging
branch: an OutputSite paired with an InputSite, in either order. -/
def outputInputPair (l r : Core) : Bool :=
  (l == Core.outputSite && r == Core.inputSite) ||
  (l == Core.inputSite && r == Core.outputSite)

/-- The isinstance test of MergedLinearRegion.combine for the unmerging
branch: an InputRegion paired with an InputSite, in either order. -/
def regionSitePair (l r : Core) : Bool :=
  (l.isInputRegion && r == Core.inputSite) ||
  (l == Core.inputSite && r.isInputRegion)

/-- Site count of the InputRegion produced by the unmerging branch of
combine: the stray InputSite tensor is unsqueezed and concatenated onto
the region tensor, so the new region stacks one more core. -/
def regionSiteSize (l r : Core) : Nat :=
  match l, r with
  | Core.inputRegion n, _ => n + 1
  | _, Core.inputRegion n => n + 1
  | _, _ => 0

/-- MergedLinearRegion.combine (torchmps.py lines 519-563) at the kind
level.  Merging an OutputSite with a stray InputSite yields a
MergedOutput whose left_output flag is (not left_site); unmerging an
InputRegion with a stray InputSite yields a larger InputRegion; every
other pair yields None. -/
def combine (l r : Core) (merging : Bool) : Option Core :=
  if merging && outputInputPair l r then
    some (Core.mergedOutput (!(l == Core.inputSite)))
  else if !merging && regionSitePair l r then
    some (Core.inputRegion (regionSiteSize l r))
  else none

/-- InputRegion.merge (torchmps.py lines 607-644) at the kind level:
regionMerge off n is the list of module kinds produced by merging an
n-site InputRegion starting at parity off.  With off = 0 and n even the
whole region becomes one MergedInput of n / 2 cores; odd lengths and
off = 1 peel single sites off the ends; empty regions vanish (the code
filters the None placeholder out of the result). -/
def regionMerge : Nat → Nat → List Core
  | _, 0 => []
  | 0, n + 1 =>
      if (n + 1) % 2 = 0 then [Core.mergedInput ((n + 1) / 2)]
      else regionMerge 0 n ++ [Core.inputSite]
  | 1, 1 => [Core.inputSite]
  | 1, n + 2 =>
      if (n + 2) % 2 = 0 then
        Core.inputSite :: (regionMerge 0 n ++ [Core.inputSite])
      else Core.inputSite :: regionMerge 0 (n + 1)
  | _ + 2, _ + 1 => []

/-- First phase of MergedLinearRegion.merge (lines 377-391): walk the
unmerged module list keeping a running site counter (started at the
merge offset and advanced by core_len), replacing each InputRegion by
its internal merge at the parity of the counter and keeping the other
modules. -/
def internalMergeGo : Nat → List Core → List Core
  | _, [] => []
  | s, c :: rest =>
      (match c with
       | Core.inputRegion n => regionMerge (s % 2) n
       | c2 => [c2]) ++ internalMergeGo (s + c.coreLen) rest

/-- One inner sweep of the sliding-window combination loop
(lines 398-420 for merging, 477-494 for unmerging): look at each
adjacent pair, and either replace it by combine and skip two positions,
or keep the left module and advance one position.  In the merging pass
the replacement is additionally gated on the parity of the running site
counter; the gate argument receives that counter. -/
def combinePassGo (merging : Bool) (gate : Nat → Bool) : Nat → List Core → List Core
  | _, [] => []
  | _, [c] => [c]
  | s, l :: r :: rest =>
      match combine l r merging with
      | some n =>
          if gate s then n :: combinePassGo merging gate (s + n.coreLen) rest
          else l :: combinePassGo merging gate (s + l.coreLen) (r :: rest)
      | none => l :: combinePassGo merging gate (s + l.coreLen) (r :: rest)

/-- One full pass of the combination loop.  On a list of fewer than two
modules the inner while loop of the source never runs and the pass
returns the empty accumulator list. -/
def combinePass (merging : Bool) (gate : Nat → Bool) (cs : List Core) : List Core :=
  match cs with
  | [] => []
  | [_] => []
  | l => combinePassGo merging gate 0 l

/-- The outer while-True loop around the combination pass: repeat the
pass until its output has the same length as its input (the source
compares lengths to detect a fixed point).  Fuel bounds the iteration;
each productive pass strictly shrinks the list, so fuel equal to the
initial length always suffices. -/
def sweepGo (merging : Bool) (gate : Nat → Bool) : Nat → List Core → List Core
  | 0, cs => cs
  | fuel + 1, cs =>
      if (combinePass merging gate cs).length = cs.length then cs
      else sweepGo merging gate fuel (combinePass merging gate cs)

/-- The combination loop run to its fixed point. -/
def sweep (merging : Bool) (gate : Nat → Bool) (cs : List Core) : List Core :=
  sweepGo merging gate cs.length cs

/-- MergedLinearRegion.merge (lines 365-442) at the kind level: the
internal region merge followed by the gated pairwise sweep (the gate
fires when the configured offset equals the running site parity). -/
def mlrMerge (offset : Nat) (cs : List Core) : List Core :=
  sweep true (fun s => offset == s % 2) (internalMergeGo offset cs)

/-- The per-module unmerge step of MergedLinearRegion.unmerge
(lines 457-469), for the modules that have an unmerge method.
Returns the replacement modules together with the tails new_bonds[1:]
and new_svs[1:] that the caller splices into its bond and
singular-value lists; true marks a junction where an SVD split wrote a
bond dimension, false the -1 sentinel.  MergedInput.unmerge splits each
of its k cores in two (one InputRegion of 2 * k cores, tail entries
bond, -1 per core); MergedOutput.unmerge splits into an OutputSite and
an InputSite in the order fixed by left_output, with tail bond, -1. -/
def coreUnmergeKind : Core → Option (List Core × List Bool × List Bool)
  | Core.mergedInput k =>
      some ([Core.inputRegion (2 * k)],
            (List.replicate k [true, false]).flatten,
            (List.replicate k [true, false]).flatten)
  | Core.mergedOutput true =>
      some ([Core.outputSite, Core.inputSite], [true, false], [true, false])
  | Core.mergedOutput false =>
      some ([Core.inputSite, Core.outputSite], [true, false], [true, false])
  | _ => none

/-- The scan of MergedLinearRegion.unmerge over the merged module list
(lines 456-469): modules with an unmerge method contribute their
replacements and list tails; an InputRegion trips the assert in the
else branch; the remaining modules are kept and contribute one -1
sentinel each. -/
def unmergeScan : List Core → Except Unit (List Core × List Bool × List Bool)
  | [] => Except.ok ([], [], [])
  | c :: rest =>
      match coreUnmergeKind c with
      | some (cs, bs, ss) =>
          match unmergeScan rest with
          | Except.error e => Except.error e
          | Except.ok (cs2, bs2, ss2) => Except.ok (cs ++ cs2, bs ++ bs2, ss ++ ss2)
      | none =>
          match c with
          | Core.inputRegion _ => Except.error ()
          | _ =>
              match unmergeScan rest with
              | Except.error e => Except.error e
              | Except.ok (cs2, bs2, ss2) =>
                  Except.ok (c :: cs2, false :: bs2, false :: ss2)

/-- MergedLinearRegion.unmerge (lines 444-517) at the kind level: the
per-module scan, then the ungated combination sweep that folds stray
InputSites back into adjacent InputRegions.  The bond and
singular-value lists each start with the -1 sentinel for the left end
junction.  The rescale step (lines 502-512) multiplies tensors by
scalars and does not change any module kind, so it has no effect at
this level; its numeric behaviour is modelled separately below. -/
def unmergeFull (cs : List Core) : Except Unit (List Core × List Bool × List Bool) :=
  match unmergeScan cs with
  | Except.error e => Except.error e
  | Except.ok (cores, bs, ss) =>
      Except.ok (sweep false (fun _ => true) cores, false :: bs, false :: ss)

/-- Kind-level proxy for the tensor-shape assert of the in-place merge
write-back (line 440): two modules have equal tensor shapes exactly
when they are the same kind with the same stack size (the bond and
feature sizes are uniform across a chain and preserved by the padded
SVD, so they are not tracked here; the left_output flag does not enter
the tensor shape). -/
def shapeEq : Core → Core → Bool
  | Core.inputRegion n, Core.inputRegion m => n == m
  | Core.inputSite, Core.inputSite => true
  | Core.outputSite, Core.outputSite => true
  | Core.mergedInput n, Core.mergedInput m => n == m
  | Core.mergedOutput _, Core.mergedOutput _ => true
  | _, _ => false

/-- The length assert (line 438) together with the per-module shape
asserts (line 440) of the merge write-back. -/
def listShapeEq (a b : List Core) : Bool :=
  a.length == b.length && (List.zip a b).all (fun p => shapeEq p.1 p.2)

/-- State of a MergedLinearRegion: the input counter, the active phase
offset, and the two stored tilings module_list_0 and module_list_1.
Tensor values are updated in place by the write-back, so at the kind
level a successful structural cycle leaves both stored lists unchanged
and only moves the counter and the offset. -/
structure MLRState where
  counter : Nat
  offset : Nat
  list0 : List Core
  list1 : List Core
deriving DecidableEq

/-- The module list the current offset points at. -/
def MLRState.active (s : MLRState) : List Core :=
  if s.offset = 0 then s.list0 else s.list1

/-- Result of one MergedLinearRegion.forward call: either the output
tensor alone, or the output together with the bond and singular-value
sentinel lists of the structural cycle that fired during the call. -/
inductive FwdRet where
  | single : FwdRet
  | triple : List Bool → List Bool → FwdRet
deriving DecidableEq

/-- MergedLinearRegion.forward (lines 331-363) at the kind level.  If
the pre-call input counter has reached the merge threshold, the active
tiling is unmerged, the offset flips, the unmerged chain is re-merged
into the alternate tiling (whose write-back asserts that lengths and
shapes match the stored list, modelled by listShapeEq; failure is an
AssertionError), and the threshold is subtracted from the counter.
The batch size is then added to the counter, and the call returns the
triple exactly when the bond list of the cycle is non-empty (the
truthiness test at line 360), and the output alone otherwise. -/
def mlrForwardStep (thr : Nat) (s : MLRState) (batch : Nat) :
    Except Unit (FwdRet × MLRState) :=
  if thr ≤ s.counter then
    match unmergeFull s.active with
    | Except.error e => Except.error e
    | Except.ok (unm, bonds, svs) =>
        match (s.offset + 1) % 2 with
        | o2 =>
          if listShapeEq (mlrMerge o2 unm) (if o2 = 0 then s.list0 else s.list1) then
            Except.ok
              ((if bonds.isEmpty then FwdRet.single else FwdRet.triple bonds svs),
               MLRState.mk (s.counter - thr + batch) o2 s.list0 s.list1)
          else Except.error ()
  else
    Except.ok (FwdRet.single, MLRState.mk (s.counter + batch) s.offset s.list0 s.list1)

/-- A sequence of forward calls, returning the per-call results and the
final state. -/
def runMLR (thr : Nat) : MLRState → List Nat → Except Unit (List FwdRet × MLRState)
  | s, [] => Except.ok ([], s)
  | s, b :: rest =>
      match mlrForwardStep thr s b with
      | Except.error e => Except.error e
      | Except.ok (r, s2) =>
          match runMLR thr s2 rest with
          | Except.error e => Except.error e
          | Except.ok (rs, s3) => Except.ok (r :: rs, s3)

/-- Number of calls in a result list that returned the triple. -/
def countTriples (rs : List FwdRet) : Nat :=
  rs.countP (fun r => match r with | FwdRet.triple _ _ => true | _ => false)

/-- The unmerged module list MPS.__init__ builds for input_dim = 6 with
the default label_site = 3: an InputRegion of 3 sites, the OutputSite,
and an InputRegion of 3 sites. -/
def unmergedChain6 : List Core :=
  [Core.inputRegion 3, Core.outputSite, Core.inputRegion 3]

/-- The state MergedLinearRegion.__init__ reaches for that chain:
merge(0) and merge(1) are built from the unmerged list, the offset is 0
and the counter 0. -/
def st6 : MLRState :=
  MLRState.mk 0 0 (mlrMerge 0 unmergedChain6) (mlrMerge 1 unmergedChain6)

/-- The unmerged module list MPS.__init__ builds for input_dim = 4 with
the default label_site = 2. -/
def unmergedChain4 : List Core :=
  [Core.inputRegion 2, Core.outputSite, Core.inputRegion 2]

/-- The constructed adaptive state for input_dim = 4, with the input
counter already at the merge threshold 10 so that the next call fires a
structural cycle. -/
def st4fire : MLRState :=
  MLRState.mk 10 0 (mlrMerge 0 unmergedChain4) (mlrMerge 1 unmergedChain4)

/-- Whether the structural cycle a call would run can complete: on a
non-firing call there is nothing to check, and on a firing call the
unmerge must succeed and the re-merged chain must pass the length and
shape asserts of the in-place write-back against the stored alternate
tiling. -/
def writeBackOK (thr : Nat) (s : MLRState) : Bool :=
  if thr ≤ s.counter then
    match unmergeFull s.active with
    | Except.ok (unm, _, _) =>
        listShapeEq (mlrMerge ((s.offset + 1) % 2) unm)
          (if (s.offset + 1) % 2 = 0 then s.list0 else s.list1)
    | Except.error _ => false
  else true

/-- The input_dim 6 adaptive state with the input counter already at
the merge threshold 10, so that the next call fires a structural
cycle. -/
def st6fire : MLRState := MLRState.mk 10 0 st6.list0 st6.list1

/-- MergedInput.__init__ (lines 689-700): the tensor must be 5-axis
with bond_str slri j, the left and right bond axes equal, and the two
feature axes equal; each assert is modelled as a conjunct of this shape
check. -/
def mergedInputShapeOK (shape : List Nat) : Bool :=
  shape.length == 5 &&
  shape.getD 1 0 == shape.getD 2 0 &&
  shape.getD 3 0 == shape.getD 4 0

/-- Float-like value for the log and exp arithmetic of the rescale step
of MergedLinearRegion.unmerge (lines 502-512).  Torch float tensors
carry minus infinity, plus infinity and NaN besides ordinary numbers;
finite values are modelled by exact reals (every float is one), so
finite overflow of exp is idealised away.  Norms themselves are
modelled by rationals, which contain every finite float exactly. -/
inductive FVal where
  | fin : Real → FVal
  | neginf : FVal
  | posinf : FVal
  | nan : FVal

/-- Whether a float-like value is an ordinary finite number. -/
def FVal.isFinite : FVal → Bool
  | FVal.fin _ => true
  | _ => false

/-- IEEE addition on the special values: NaN absorbs, opposite
infinities give NaN, an infinity absorbs finite values. -/
def FVal.add : FVal → FVal → FVal
  | FVal.nan, _ => FVal.nan
  | _, FVal.nan => FVal.nan
  | FVal.fin a, FVal.fin b => FVal.fin (a + b)
  | FVal.neginf, FVal.posinf => FVal.nan
  | FVal.posinf, FVal.neginf => FVal.nan
  | FVal.neginf, _ => FVal.neginf
  | _, FVal.neginf => FVal.neginf
  | FVal.posinf, _ => FVal.posinf
  | _, FVal.posinf => FVal.posinf

/-- IEEE subtraction on the special values: NaN absorbs, an infinity
minus itself gives NaN, otherwise infinities dominate. -/
def FVal.sub : FVal → FVal → FVal
  | FVal.nan, _ => FVal.nan
  | _, FVal.nan => FVal.nan
  | FVal.fin a, FVal.fin b => FVal.fin (a - b)
  | FVal.neginf, FVal.neginf => FVal.nan
  | FVal.posinf, FVal.posinf => FVal.nan
  | FVal.neginf, _ => FVal.neginf
  | FVal.posinf, _ => FVal.posinf
  | _, FVal.neginf => FVal.posinf
  | _, FVal.posinf => FVal.neginf

/-- torch.log on a norm (always nonnegative): log of zero is minus
infinity, log of a negative number would be NaN, log of a positive
number is finite. -/
noncomputable def flog (x : Rat) : FVal :=
  if x < 0 then FVal.nan
  else if x = 0 then FVal.neginf
  else FVal.fin (Real.log (x : Real))

/-- torch.exp: exp of minus infinity is zero, exp of NaN is NaN, exp of
a finite value is finite (float overflow to plus infinity for huge
arguments is idealised away). -/
noncomputable def fexp : FVal → FVal
  | FVal.fin a => FVal.fin (Real.exp a)
  | FVal.neginf => FVal.fin 0
  | FVal.posinf => FVal.posinf
  | FVal.nan => FVal.nan

/-- Division of the accumulated log norm by the core count (the
division never meets a zero count on the chains the engine builds, so
the zero-count junk value of the finite branch is never exercised by
the theorems below, which assume a positive count). -/
noncomputable def fdivN (v : FVal) (n : Nat) : FVal :=
  match v with
  | FVal.fin a => FVal.fin (a / (n : Real))
  | w => w

/-- The Python built-in sum over a list of tensors, which starts from
the integer zero. -/
def fsum (l : List FVal) : FVal := l.foldl FVal.add (FVal.fin 0)

/-- The average log norm of lines 503-507: sum the logs of all core
norms (grouped per module as get_norm returns them) and divide by the
number of cores. -/
noncomputable def logScaleOf (normss : List (List Rat)) : FVal :=
  fdivN (fsum ((normss.map (fun ns => ns.map flog)).map fsum))
        ((normss.map (fun ns => ns.map flog)).map List.length).sum

/-- The per-core scale factors of line 510: exp of the average log norm
minus the log norm of the core.  Lines 502-512 contain no raise
statement, so this computation is total and simply propagates whatever
special values arise. -/
noncomputable def rescaleScales (normss : List (List Rat)) : List (List FVal) :=
  (normss.map (fun ns => ns.map flog)).map
    (fun ns => ns.map (fun n => fexp (FVal.sub (logScaleOf normss) n)))

/-- The update loop of MPS.forward (lines 194-198): walk the stored
bond list and singular-value list together with the returned ones, and
overwrite an entry only where the returned bond entry differs from the
-1 sentinel. -/
def updateBondSv {α : Type} : List Int → List α → List Int → List α → List Int × List α
  | b :: bs, s :: ss, nb :: nbs, ns :: nss =>
      match updateBondSv bs ss nbs nss with
      | (rb, rs) =>
          ((if nb ≠ -1 then nb else b) :: rb,
           (if nb ≠ -1 then ns else s) :: rs)
  | bs, ss, _, _ => (bs, ss)

/-- Error kinds of MPS.embed_input: a failed assert (lines 94-95), the
ValueError for pre-embedded data of the wrong feature width
(lines 99-102), and the RuntimeError of the default embedding when
feature_dim is not 2 (lines 119-121). -/
inductive EmbedErr where
  | assertFail : EmbedErr
  | valueErr : EmbedErr
  | runtimeErr : EmbedErr
deriving DecidableEq

/-- Input to MPS.embed_input: either an unembedded 2-axis tensor of
shape batch by sites, or a pre-embedded 3-axis tensor of shape batch by
sites by features, with rational entries. -/
inductive MPSInput where
  | raw : Nat → Nat → (Nat → Nat → Rat) → MPSInput
  | emb : Nat → Nat → Nat → (Nat → Nat → Nat → Rat) → MPSInput

/-- MPS.embed_input (lines 80-128) with no custom feature map
registered (self.feature_map is None, as MPS.__init__ leaves it): the
rank assert is carried by the two input constructors; the site-count
assert comes first; a 3-axis input is returned unchanged when its third
axis equals feature_dim and raises ValueError otherwise; a 2-axis input
goes through the default linear embedding x, 1 - x, which requires
feature_dim = 2. -/
def embed_input (input_dim feature_dim : Nat) : MPSInput → Except EmbedErr MPSInput
  | MPSInput.emb b n d x =>
      if n ≠ input_dim then Except.error EmbedErr.assertFail
      else if d ≠ feature_dim then Except.error EmbedErr.valueErr
      else Except.ok (MPSInput.emb b n d x)
  | MPSInput.raw b n x =>
      if n ≠ input_dim then Except.error EmbedErr.assertFail
      else if feature_dim ≠ 2 then Except.error EmbedErr.runtimeErr
      else Except.ok (MPSInput.emb b n 2
        (fun i s j => if j = 0 then x i s else 1 - x i s))

/-- Modelled from the spec: contractables.py is not under src/, so the
contractable values of section 4.1 are modelled here.  A contractable
is a batched tensor with an optional output axis and a left and a right
bond axis; kinds are read off the axis sizes (batch size 1 stands for
an unbatched value to broadcast, output size 1 for the absence of an
output axis, bond size 1 for a trivial bond).  Entries are rational
(every finite float is a rational). -/
structure Ctr where
  b : Nat
  o : Nat
  dl : Nat
  dr : Nat
  x : Nat → Nat → Nat → Nat → Rat

/-- Error kinds of the contraction engine: a bond-size mismatch or a
periodic trace over unequal axes (torch shape errors), two output axes
meeting, incompatible batch sizes, and reduction of an empty list. -/
inductive CtrErr where
  | shape : CtrErr
  | outClash : CtrErr
  | batchClash : CtrErr
  | emptyList : CtrErr
deriving DecidableEq

/-- Default contractable for head and last lookups. -/
def dCtr : Ctr := Ctr.mk 1 1 1 1 (fun _ _ _ _ => 0)

/-- Modelled from the spec: the pairwise contraction of section 4.1.
The right bond of the left value is contracted with the left bond of
the right value (shape error on mismatch); two genuine output axes
cannot meet; batches must agree unless one side is broadcast.  The
surviving batch and output axes come from whichever side has them. -/
def Ctr.mul (A B : Ctr) : Except CtrErr Ctr :=
  if A.dr ≠ B.dl then Except.error CtrErr.shape
  else if A.o ≠ 1 ∧ B.o ≠ 1 then Except.error CtrErr.outClash
  else if A.b ≠ 1 ∧ B.b ≠ 1 ∧ A.b ≠ B.b then Except.error CtrErr.batchClash
  else Except.ok (Ctr.mk
    (if A.b = 1 then B.b else A.b)
    (if A.o = 1 then B.o else A.o)
    A.dl B.dr
    (fun p w i j => Finset.sum (Finset.range A.dr) (fun k =>
      A.x (if A.b = 1 then 0 else p) (if A.o = 1 then 0 else w) i k *
      B.x (if B.b = 1 then 0 else p) (if B.o = 1 then 0 else w) k j)))

/-- Modelled from the spec: one level of the balanced-tree reduction,
multiplying neighbouring pairs and carrying an odd last element
through. -/
def pairUp : List Ctr → Except CtrErr (List Ctr)
  | [] => Except.ok []
  | [c] => Except.ok [c]
  | a :: b :: rest =>
      match Ctr.mul a b with
      | Except.error e => Except.error e
      | Except.ok m =>
          match pairUp rest with
          | Except.error e => Except.error e
          | Except.ok r => Except.ok (m :: r)

/-- Modelled from the spec: the parallel reduction of ContractableList,
iterating the pairing level until one value remains.  Each productive
level halves the length (rounding up), so fuel equal to the initial
length always suffices. -/
def reduceParGo : Nat → List Ctr → Except CtrErr Ctr
  | _, [] => Except.error CtrErr.emptyList
  | _, [c] => Except.ok c
  | 0, _ :: _ :: _ => Except.error CtrErr.emptyList
  | fuel + 1, a :: b :: rest =>
      match pairUp (a :: b :: rest) with
      | Except.error e => Except.error e
      | Except.ok cs => reduceParGo fuel cs

/-- The reduction with parallel_eval true, as the periodic branch of
LinearRegion.forward requests at line 255. -/
def reducePar (cs : List Ctr) : Except CtrErr Ctr := reduceParGo cs.length cs

/-- Result of the periodic trace: a batched tensor with an output axis
and no bond axes left. -/
structure TraceOut where
  b : Nat
  o : Nat
  y : Nat → Nat → Rat

/-- The einsum trace of LinearRegion.forward (lines 261-272): both bond
labels are mapped to the same einsum index, which torch accepts only
when the two axes are equal in size, and which then sums the diagonal;
unequal axes are a shape error. -/
def traceLR (t : Ctr) : Except CtrErr TraceOut :=
  if t.dl = t.dr then
    Except.ok (TraceOut.mk t.b t.o
      (fun p w => Finset.sum (Finset.range t.dl) (fun i => t.x p w i i)))
  else Except.error CtrErr.shape

/-- The periodic branch of LinearRegion.forward (lines 251-272): the
per-module contractable list is reduced as it stands, with no boundary
vectors inserted (those belong to the open branch at lines 284-289),
and the reduced tensor is traced over its two bond axes. -/
def periodicForward (cs : List Ctr) : Except CtrErr TraceOut :=
  match reducePar cs with
  | Except.error e => Except.error e
  | Except.ok t => traceLR t

/-- Adjacent bond sizes all match along the chain. -/
def linksOK : List Ctr → Bool
  | [] => true
  | [_] => true
  | a :: b :: rest => (a.dr == b.dl) && linksOK (b :: rest)

/-- Every batch size is either broadcast or the common batch size. -/
def batchesOK (B : Nat) (cs : List Ctr) : Bool :=
  cs.all (fun c => c.b == 1 || c.b == B)

/-- Whether a contractable carries a genuine output axis. -/
def hasOut (c : Ctr) : Bool := !(c.o == 1)

/-- Left bond size of the first element. -/
def headDl (cs : List Ctr) : Nat := (cs.headD dCtr).dl

/-- Right bond size of the last element. -/
def lastDr (cs : List Ctr) : Nat := ((cs.getLast?).getD dCtr).dr

/-- A batched matrix contractable of bond sizes one and three. -/
def ctrA : Ctr := Ctr.mk 2 1 1 3 (fun _ _ _ k => k)

/-- An unbatched output contractable of bond sizes three and one. -/
def ctrB : Ctr := Ctr.mk 1 4 3 1 (fun _ _ k _ => k + 1)

/-- Scalar rescaling of a contractable: the in-place multiplication of
a core tensor by a scale factor (the rescale_norm methods) as it acts
on the contractable the core emits, which is linear in the core. -/
def Ctr.smul (q : Rat) (c : Ctr) : Ctr :=
  Ctr.mk c.b c.o c.dl c.dr (fun p w i j => q * c.x p w i j)

/-- The merged tensor of an adjacent even/odd pair of single-input
cores (InputRegion.merge, lines 639-640, einsum slui,surj to slrij per
stacked core): contract the shared bond of size D and keep both
feature axes. -/
def mergePair (D : Nat) (A Bc : Nat → Nat → Nat → Rat) :
    Nat → Nat → Nat → Nat → Rat :=
  fun l r i j => Finset.sum (Finset.range D) (fun u => A l u i * Bc u r j)

/-- The merged tensor of an OutputSite with the InputSite on its right
(combine, lines 538-539, einsum olu,uri to olri). -/
def mergeOutL (D : Nat) (T S : Nat → Nat → Nat → Rat) :
    Nat → Nat → Nat → Nat → Rat :=
  fun o l r i => Finset.sum (Finset.range D) (fun u => T o l u * S u r i)

/-- The merged tensor of an InputSite with the OutputSite on its right
(combine, lines 535-536, einsum lui,our to olri). -/
def mergeOutR (D : Nat) (S T : Nat → Nat → Nat → Rat) :
    Nat → Nat → Nat → Nat → Rat :=
  fun o l r i => Finset.sum (Finset.range D) (fun u => S l u i * T o u r)

/-- The contractable a single-input core emits on a batch of embedded
inputs (InputSite.forward, einsum lri,bi to blr; each site slice of
InputRegion.forward does the same): a batched matrix with no output
axis, contracting the feature axis of size df against the input
vector. -/
def siteCtr (Bt dl dr df : Nat) (t : Nat → Nat → Nat → Rat)
    (v : Nat → Nat → Rat) : Ctr :=
  Ctr.mk Bt 1 dl dr
    (fun p _ l r => Finset.sum (Finset.range df) (fun i => t l r i * v p i))

/-- The contractable an output core emits (OutputSite.forward wraps its
olr tensor as an unbatched OutputCore, broadcast over the batch). -/
def outCtr (od dl dr : Nat) (t : Nat → Nat → Nat → Rat) : Ctr :=
  Ctr.mk 1 od dl dr (fun _ w l r => t w l r)

/-- Modelled from the spec: the sequential reduction of
ContractableList (contractables.py is not under src/), folding the
pairwise contraction strictly left to right, as the open-boundary
branch of LinearRegion.forward requests with the default
parallel_eval false. -/
def reduceSeqGo : Ctr → List Ctr → Except CtrErr Ctr
  | acc, [] => Except.ok acc
  | acc, c :: rest =>
      match Ctr.mul acc c with
      | Except.error e => Except.error e
      | Except.ok m => reduceSeqGo m rest

/-- Modelled from the spec: sequential reduction of a contractable
list, seeded with its first element. -/
def reduceSeq : List Ctr → Except CtrErr Ctr
  | [] => Except.error CtrErr.emptyList
  | c :: rest => reduceSeqGo c rest

/-- The entry function of a contractable with its broadcast selections
applied: batch index 0 when the value is unbatched and output index 0
when the output axis is absent.  The payload of the pairwise
contraction is literally a bond contraction of the den values of its
two factors. -/
def den (c : Ctr) : Nat → Nat → Nat → Nat → Rat :=
  fun p w i j => c.x (if c.b = 1 then 0 else p) (if c.o = 1 then 0 else w) i j

/-- MergedInput.__init__ accepts a shape only when its two feature axes
are equal: the assert shape[3] == shape[4] at line 695. -/
lemma mergedInputShapeOK_features (s : List Nat) (h : mergedInputShapeOK s = true) :
    s.getD 3 0 = s.getD 4 0 := by
  simp only [mergedInputShapeOK, Bool.and_eq_true, beq_iff_eq] at h
  exact h.2

/-- core_len exceeds len by exactly the number of output-bearing
modules: each OutputSite and each MergedOutput contributes one more to
core_len than to len, and every input module contributes equally. -/
lemma chainCoreLen_eq_len_add_outputCount (cs : List Core) :
    chainCoreLen cs = chainLen cs + outputCount cs := by
  induction cs with
  | nil => rfl
  | cons c rest ih =>
      cases c <;>
        simp [chainCoreLen, chainLen, outputCount, Core.coreLen, Core.len,
              Core.isOutputBearing, List.countP_cons] at ih ⊢ <;> omega

/-- The bond tail a MergedInput of k cores contributes has two entries
per split core. -/
lemma length_flatten_replicate_pair (k : Nat) :
    ((List.replicate k [true, false]).flatten).length = 2 * k := by
  induction k with
  | zero => rfl
  | succ n ih => simp only [List.replicate_succ, List.flatten_cons,
      List.length_append, List.length_cons, List.length_nil, ih]; omega

/-- Site count of a chain splits across its head. -/
lemma chainLen_cons (c : Core) (cs : List Core) :
    chainLen (c :: cs) = c.len + chainLen cs := by
  simp [chainLen]

/-- Output-bearing count of a chain splits across its head. -/
lemma outputCount_cons (c : Core) (cs : List Core) :
    outputCount (c :: cs) =
      outputCount cs + (if c.isOutputBearing then 1 else 0) := by
  simp [outputCount, List.countP_cons]

/-- On a merged chain without InputRegions the unmerge scan succeeds,
and the bond and singular-value tails it builds have one entry per
input site plus one per output-bearing module: a MergedInput of k cores
covers 2k sites and contributes 2k entries, a MergedOutput covers one
site and contributes two entries, an InputSite covers one site and
contributes one sentinel, and an OutputSite covers no site and
contributes one sentinel. -/
lemma unmergeScan_ok (cs : List Core) (h : noInputRegion cs = true) :
    ∃ cs2 bs ss, unmergeScan cs = Except.ok (cs2, bs, ss) ∧
      bs.length = chainLen cs + outputCount cs ∧
      ss.length = chainLen cs + outputCount cs := by
  induction cs with
  | nil => exact ⟨[], [], [], rfl, rfl, rfl⟩
  | cons c rest ih =>
      have hrest : noInputRegion rest = true := by
        simp only [noInputRegion, List.all_cons, Bool.and_eq_true] at h
        exact h.2
      obtain ⟨cs2, bs2, ss2, hs, hb, hss⟩ := ih hrest
      cases c with
      | inputRegion n =>
          simp [noInputRegion, Core.isInputRegion] at h
      | inputSite =>
          have e1 : Core.len Core.inputSite = 1 := rfl
          have e2 : (if (Core.inputSite).isOutputBearing then 1 else 0) = 0 := rfl
          refine ⟨Core.inputSite :: cs2, false :: bs2, false :: ss2, ?_, ?_, ?_⟩
          · simp [unmergeScan, coreUnmergeKind, hs]
          · rw [List.length_cons, hb, chainLen_cons, outputCount_cons, e1, e2]
            omega
          · rw [List.length_cons, hss, chainLen_cons, outputCount_cons, e1, e2]
            omega
      | outputSite =>
          have e1 : Core.len Core.outputSite = 0 := rfl
          have e2 : (if (Core.outputSite).isOutputBearing then 1 else 0) = 1 := rfl
          refine ⟨Core.outputSite :: cs2, false :: bs2, false :: ss2, ?_, ?_, ?_⟩
          · simp [unmergeScan, coreUnmergeKind, hs]
          · rw [List.length_cons, hb, chainLen_cons, outputCount_cons, e1, e2]
            omega
          · rw [List.length_cons, hss, chainLen_cons, outputCount_cons, e1, e2]
            omega
      | mergedInput k =>
          have e1 : Core.len (Core.mergedInput k) = 2 * k := rfl
          have e2 : (if (Core.mergedInput k).isOutputBearing then 1 else 0) = 0 := rfl
          refine ⟨Core.inputRegion (2 * k) :: cs2,
              (List.replicate k [true, false]).flatten ++ bs2,
              (List.replicate k [true, false]).flatten ++ ss2, ?_, ?_, ?_⟩
          · simp [unmergeScan, coreUnmergeKind, hs]
          · rw [List.length_append, length_flatten_replicate_pair, hb,
              chainLen_cons, outputCount_cons, e1, e2]
            omega
          · rw [List.length_append, length_flatten_replicate_pair, hss,
              chainLen_cons, outputCount_cons, e1, e2]
            omega
      | mergedOutput lo =>
          have hker : coreUnmergeKind (Core.mergedOutput lo) =
              some ((if lo then [Core.outputSite, Core.inputSite]
                     else [Core.inputSite, Core.outputSite]),
                    [true, false], [true, false]) := by
            cases lo <;> rfl
          have e0 : ([true, false] : List Bool).length = 2 := rfl
          have e1 : Core.len (Core.mergedOutput lo) = 1 := rfl
          have e2 : (if (Core.mergedOutput lo).isOutputBearing then 1 else 0) = 1 := rfl
          refine ⟨(if lo then [Core.outputSite, Core.inputSite]
                   else [Core.inputSite, Core.outputSite]) ++ cs2,
              [true, false] ++ bs2, [true, false] ++ ss2, ?_, ?_, ?_⟩
          · simp [unmergeScan, hker, hs]
          · rw [List.length_append, e0, hb, chainLen_cons, outputCount_cons, e1, e2]
            omega
          · rw [List.length_append, e0, hss, chainLen_cons, outputCount_cons, e1, e2]
            omega

/-- C2: for input_dim 4 with the default label_site 2, the firing call
does not return at all: after the unmerge, the two stray single-input
cores to the right of the output site cannot rejoin any input region,
so the re-merged tiling has four modules while the stored alternate
tiling has three, and the in-place write-back length assert at line 438
raises AssertionError.  A fired call that raises instead of returning
the triple refutes the claimed equivalence. -/
theorem c2_counterexample :
    10 ≤ st4fire.counter ∧ mlrForwardStep 10 st4fire 4 = Except.error () :=
  ⟨by decide, rfl⟩

/-- C2 amended: on a merged chain with one output-bearing module, no
InputRegion, and site count N, a forward call whose structural cycle
can complete its write-back (in particular any non-firing call) returns
the output alone exactly when the pre-call counter is below the
threshold, and otherwise returns the triple whose bond-dimension and
singular-value lists both have length N + 2; when the re-merged tiling
mismatches the stored one the call instead raises AssertionError, as
for input_dim 4. -/
theorem c2_forward_return (thr batch N : Nat) (s : MLRState)
    (h1 : noInputRegion s.active = true)
    (h2 : outputCount s.active = 1)
    (h3 : chainLen s.active = N)
    (h4 : writeBackOK thr s = true) :
    ∃ r s2, mlrForwardStep thr s batch = Except.ok (r, s2) ∧
      ((r = FwdRet.single) ↔ s.counter < thr) ∧
      (∀ bs ss, r = FwdRet.triple bs ss → bs.length = N + 2 ∧ ss.length = N + 2) := by
  by_cases hthr : thr ≤ s.counter
  · obtain ⟨cs2, bs2, ss2, hs, hb, hss⟩ := unmergeScan_ok s.active h1
    have hu : unmergeFull s.active =
        Except.ok (sweep false (fun _ => true) cs2, false :: bs2, false :: ss2) := by
      simp only [unmergeFull, hs]
    have hwb : listShapeEq
        (mlrMerge ((s.offset + 1) % 2) (sweep false (fun _ => true) cs2))
        (if (s.offset + 1) % 2 = 0 then s.list0 else s.list1) = true := by
      have h5 := h4
      rw [writeBackOK, if_pos hthr, hu] at h5
      exact h5
    refine ⟨FwdRet.triple (false :: bs2) (false :: ss2),
        MLRState.mk (s.counter - thr + batch) ((s.offset + 1) % 2) s.list0 s.list1,
        ?_, ?_, ?_⟩
    · rw [mlrForwardStep, if_pos hthr, hu]
      simp [hwb]
    · constructor
      · intro h5; exact absurd h5 (by simp)
      · intro h5; exact absurd h5 (by omega)
    · intro bs ss heq
      injection heq with e1 e2
      constructor
      · rw [← e1]; simp only [List.length_cons, hb, h2, h3]
      · rw [← e2]; simp only [List.length_cons, hss, h2, h3]
  · refine ⟨FwdRet.single,
        MLRState.mk (s.counter + batch) s.offset s.list0 s.list1, ?_, ?_, ?_⟩
    · rw [mlrForwardStep, if_neg hthr]
    · simp only [true_iff]; omega
    · intro bs ss heq; exact absurd heq (by simp)

/-- Witness: the input_dim 6 state at threshold 10 with counter 10
satisfies the hypotheses, and its firing call returns a triple of
lists of length 8. -/
theorem c2_forward_return_witness :
    noInputRegion st6fire.active = true ∧
    outputCount st6fire.active = 1 ∧
    chainLen st6fire.active = 6 ∧
    writeBackOK 10 st6fire = true ∧
    (∃ r s2, mlrForwardStep 10 st6fire 4 = Except.ok (r, s2) ∧
      ((r = FwdRet.single) ↔ st6fire.counter < 10) ∧
      (∀ bs ss, r = FwdRet.triple bs ss →
        bs.length = 6 + 2 ∧ ss.length = 6 + 2)) :=
  ⟨by decide, by decide, by decide, by decide,
   c2_forward_return 10 4 6 st6fire (by decide) (by decide) (by decide) (by decide)⟩

/-- C1: the claim reads the source threshold test as firing within the
three calls of batch size 4, 4, 4 under threshold 10.  The source
(line 344) compares the counter to the threshold at the start of the
call, before the current batch is added, so the pre-call counters of
the three calls are 0, 4 and 8: no structural cycle fires and the
counter ends at 12, refuting both the single-cycle count and the final
counter value 2. -/
theorem c1_counterexample :
    ¬ ∃ rs s2, runMLR 10 st6 [4, 4, 4] = Except.ok (rs, s2) ∧
        countTriples rs = 1 ∧ s2.counter = 2 := by
  rintro ⟨rs, s2, h, h1, h2⟩
  have hv : runMLR 10 st6 [4, 4, 4] =
      Except.ok ([FwdRet.single, FwdRet.single, FwdRet.single],
        MLRState.mk 12 0 st6.list0 st6.list1) := by rfl
  rw [hv] at h
  injection h with h3
  injection h3 with h4 h5
  subst h4
  exact absurd h1 (by decide)

/-- C1 amended: the threshold test uses the pre-call counter, so with
threshold 10 and batches 4, 4, 4 no cycle fires and the counter ends at
12; a fourth call, the first whose pre-call counter reaches the
threshold, fires exactly one structural cycle and leaves the counter at
2 plus the batch size of that call (here 2 + 4 = 6). -/
theorem c1_threshold_firing :
    runMLR 10 st6 [4, 4, 4] =
      Except.ok ([FwdRet.single, FwdRet.single, FwdRet.single],
        MLRState.mk 12 0 st6.list0 st6.list1) ∧
    runMLR 10 st6 [4, 4, 4, 4] =
      Except.ok ([FwdRet.single, FwdRet.single, FwdRet.single,
          FwdRet.triple [false, true, false, true, false, true, false, false]
                        [false, true, false, true, false, true, false, false]],
        MLRState.mk (2 + 4) 1 st6.list0 st6.list1) := by
  exact ⟨rfl, rfl⟩

/-- C3: the pair rows of the grammar table that merge an input region
or a single-input core with a single-input core are not handled by
combine: combine returns None on every such pair in merging mode (the
even/odd input pairing is performed inside InputRegion.merge instead),
refuting the claim that combine is non-null there. -/
theorem c3_counterexample :
    combine Core.inputSite Core.inputSite true = none ∧
    combine (Core.inputRegion 1) Core.inputSite true = none ∧
    combine Core.inputSite (Core.inputRegion 1) true = none := ⟨rfl, rfl, rfl⟩

/-- C3 amended: combine returns a non-null core exactly for an output
core with a single-input core (either order) under merging, and an
input region with a single-input core (either order) under unmerging;
it returns None for every other pair and mode, including the
input-with-input merging row of the table, which is performed by the
internal InputRegion merge pass rather than by combine. -/
theorem c3_combine_grammar (l r : Core) (m : Bool) :
    (combine l r m).isSome = true ↔
      (m = true ∧ ((l = Core.outputSite ∧ r = Core.inputSite) ∨
                   (l = Core.inputSite ∧ r = Core.outputSite))) ∨
      (m = false ∧ (((∃ n, l = Core.inputRegion n) ∧ r = Core.inputSite) ∨
                    (l = Core.inputSite ∧ ∃ n, r = Core.inputRegion n))) := by
  cases l <;> cases r <;> cases m <;>
    simp [combine, outputInputPair, regionSitePair, Core.isInputRegion]

/-- C4: a chain with no merged cores need not have core count equal to
site count: the unmerged constructed chain region-output-region has
core_len 5 and len 4 because OutputSite has core_len 1 but len 0, so
the claimed equivalence between equality and the absence of merged
cores is false. -/
theorem c4_counterexample :
    ¬ ∀ cs : List Core, chainLen cs ≤ chainCoreLen cs ∧
        (chainCoreLen cs = chainLen cs ↔ chainHasMerged cs = false) := by
  intro h
  have h1 := (h [Core.inputRegion 2, Core.outputSite, Core.inputRegion 2]).2
  have h2 := h1.mpr (by decide)
  exact absurd h2 (by decide)

/-- C4 amended: for every chain the core count is at least the site
count, and the difference is exactly the number of output-bearing
modules (OutputSite or MergedOutput), so equality holds precisely when
the chain has no output core; merged input cores leave the difference
unchanged because MergedInput.core_len counts its sites. -/
theorem c4_core_len_invariant (cs : List Core) :
    chainLen cs ≤ chainCoreLen cs ∧
    chainCoreLen cs = chainLen cs + outputCount cs ∧
    (chainCoreLen cs = chainLen cs ↔ outputCount cs = 0) := by
  have h := chainCoreLen_eq_len_add_outputCount cs
  exact ⟨by omega, h, by omega⟩

/-- C5: no shape with unequal feature axes passes the MergedInput
constructor checks, since the assert at line 695 requires
shape[3] == shape[4]; this is the negation of the claimed existence of
an accepted merged-input tensor with differing feature axes. -/
theorem c5_counterexample :
    ¬ ∃ s : List Nat, mergedInputShapeOK s = true ∧ s.getD 3 0 ≠ s.getD 4 0 := by
  rintro ⟨s, h1, h2⟩
  exact h2 (mergedInputShapeOK_features s h1)

/-- C5 amended: the two feature axes of a merged-input core are
required to be equal in size; the constructor accepts a tensor shape
only when axis 3 and axis 4 agree. -/
theorem c5_feature_axes_equal (s : List Nat) (h : mergedInputShapeOK s = true) :
    s.getD 3 0 = s.getD 4 0 :=
  mergedInputShapeOK_features s h

/-- Witness: the shape one-two-two-three-three passes the constructor
checks and its feature axes agree. -/
theorem c5_feature_axes_equal_witness :
    mergedInputShapeOK [1, 2, 2, 3, 3] = true ∧
    List.getD [1, 2, 2, 3, 3] 3 0 = List.getD [1, 2, 2, 3, 3] 4 0 :=
  ⟨by decide, c5_feature_axes_equal [1, 2, 2, 3, 3] (by decide)⟩

/-- torch.log of a positive norm is finite. -/
lemma flog_pos (v : Rat) (h : 0 < v) : flog v = FVal.fin (Real.log (v : Real)) := by
  rw [flog, if_neg (not_lt.mpr h.le), if_neg h.ne']

/-- Folding IEEE addition from a finite seed over finite values stays
finite. -/
lemma foldl_add_fin (l : List FVal) (h : ∀ v ∈ l, ∃ a, v = FVal.fin a) :
    ∀ c : Real, ∃ a, l.foldl FVal.add (FVal.fin c) = FVal.fin a := by
  induction l with
  | nil => exact fun c => ⟨c, rfl⟩
  | cons v t ih =>
      intro c
      obtain ⟨b, hb⟩ := h v (List.mem_cons_self v t)
      subst hb
      exact ih (fun w hw => h w (List.mem_cons_of_mem _ hw)) (c + b)

/-- The Python sum of a list of finite values is finite. -/
lemma fsum_fin (l : List FVal) (h : ∀ v ∈ l, ∃ a, v = FVal.fin a) :
    ∃ a, fsum l = FVal.fin a :=
  foldl_add_fin l h 0

/-- C7: the rescale step of the structural cycle (lines 502-512)
contains no raise statement; on a chain holding an all-zero core it
returns NaN for that core instead of surfacing any error, so the
claimed NumericalDegeneracyError is never raised (no such class exists
in the source) and a non-finite value is propagated.  Norm lists zero
and one: the zero-norm core receives exp of minus infinity minus minus
infinity, which is NaN. -/
theorem c7_counterexample :
    rescaleScales [[0], [1]] = [[FVal.nan], [FVal.fin 0]] ∧
    FVal.isFinite FVal.nan = false := by
  constructor
  · rw [rescaleScales]
    rfl
  · rfl

/-- C7 amended: the rescale step never raises; when every core norm is
positive (and the chain is nonempty) every computed scale factor is an
ordinary finite number, and when some core has norm zero the scale
computed for it is NaN rather than an error. -/
theorem c7_rescale_finite (normss : List (List Rat))
    (hpos : ∀ ns ∈ normss, ∀ v ∈ ns, 0 < v)
    (hcnt : 0 < (normss.map List.length).sum) :
    ∀ row ∈ rescaleScales normss, ∀ sc ∈ row, sc.isFinite = true := by
  have hlog : ∀ ns0 ∈ normss, ∃ b, fsum (ns0.map flog) = FVal.fin b := by
    intro ns0 h0
    apply fsum_fin
    intro v hv
    simp only [List.mem_map] at hv
    obtain ⟨q, hq, h2⟩ := hv
    subst h2
    exact ⟨Real.log (q : Real), flog_pos q (hpos ns0 h0 q hq)⟩
  have htot : ∃ a, fsum ((normss.map (fun ns => ns.map flog)).map fsum) =
      FVal.fin a := by
    apply fsum_fin
    intro v hv
    simp only [List.mem_map] at hv
    obtain ⟨a, ⟨b0, hb0, hab⟩, hfv⟩ := hv
    subst hab
    subst hfv
    exact hlog b0 hb0
  obtain ⟨t, ht⟩ := htot
  have hscale : ∃ a, logScaleOf normss = FVal.fin a := by
    rw [logScaleOf, ht]
    exact ⟨_, rfl⟩
  obtain ⟨a, ha⟩ := hscale
  intro row hrow sc hsc
  simp only [rescaleScales, List.mem_map] at hrow
  obtain ⟨ns1, ⟨ns0, hns0, hmap⟩, hrow2⟩ := hrow
  subst hmap
  subst hrow2
  simp only [List.mem_map] at hsc
  obtain ⟨n1, ⟨q, hq, hfl⟩, hsc2⟩ := hsc
  subst hfl
  subst hsc2
  rw [flog_pos q (hpos ns0 hns0 q hq), ha]
  rfl

/-- Witness: on the one-module one-core chain of norm one, every
computed rescale factor is finite. -/
theorem c7_rescale_finite_witness :
    (∀ ns ∈ ([[1]] : List (List Rat)), ∀ v ∈ ns, 0 < v) ∧
    0 < (([[1]] : List (List Rat)).map List.length).sum ∧
    (∀ row ∈ rescaleScales [[1]], ∀ sc ∈ row, sc.isFinite = true) :=
  ⟨by decide, by decide, c7_rescale_finite [[1]] (by decide) (by decide)⟩

/-- C9: in the bookkeeping loop of MPS.forward, a junction whose
returned bond entry is the -1 sentinel keeps its previous bond and
singular-value entries, and a junction with any other returned entry is
overwritten with the returned values. -/
theorem c9_sentinel_frame {α : Type} (bonds : List Int) (svs newSvs : List α)
    (newBonds : List Int) (i : Nat) (hi : i < bonds.length)
    (hb : bonds.length = newBonds.length)
    (hs : svs.length = newSvs.length)
    (hbs : bonds.length = svs.length) :
    (newBonds.get? i = some (-1) →
      (updateBondSv bonds svs newBonds newSvs).1.get? i = bonds.get? i ∧
      (updateBondSv bonds svs newBonds newSvs).2.get? i = svs.get? i) ∧
    (∀ v, newBonds.get? i = some v → v ≠ -1 →
      (updateBondSv bonds svs newBonds newSvs).1.get? i = some v ∧
      (updateBondSv bonds svs newBonds newSvs).2.get? i = newSvs.get? i) := by
  induction bonds generalizing svs newBonds newSvs i with
  | nil => exact absurd hi (by simp)
  | cons b bs ih =>
      cases newBonds with
      | nil => simp at hb
      | cons nb nbs =>
          cases svs with
          | nil => simp at hbs
          | cons s ss =>
              cases newSvs with
              | nil => simp at hs
              | cons ns nss =>
                  cases i with
                  | zero =>
                      constructor
                      · intro hmem
                        have h0 : nb = -1 := by
                          simpa using hmem
                        subst h0
                        simp [updateBondSv]
                      · intro v hv hvne
                        have h0 : nb = v := by
                          simpa using hv
                        subst h0
                        simp [updateBondSv, if_pos hvne]
                  | succ j =>
                      have hj : j < bs.length := by
                        simpa using hi
                      have hb2 : bs.length = nbs.length := by
                        simpa using hb
                      have hs2 : ss.length = nss.length := by
                        simpa using hs
                      have hbs2 : bs.length = ss.length := by
                        simpa using hbs
                      have hrec := ih ss nss nbs j hj hb2 hs2 hbs2
                      constructor
                      · intro hmem
                        have hm2 : nbs.get? j = some (-1) := by
                          simpa using hmem
                        obtain ⟨e1, e2⟩ := hrec.1 hm2
                        constructor
                        · simpa [updateBondSv] using e1
                        · simpa [updateBondSv] using e2
                      · intro v hv hvne
                        have hv2 : nbs.get? j = some v := by
                          simpa using hv
                        obtain ⟨e1, e2⟩ := hrec.2 v hv2 hvne
                        constructor
                        · simpa [updateBondSv] using e1
                        · simpa [updateBondSv] using e2

/-- Witness: with stored bonds five-eight, stored values ten-eleven,
returned bonds sentinel-three and returned values twelve-thirteen, the
first junction is a sentinel junction and keeps its stored entries. -/
theorem c9_sentinel_frame_witness :
    (([-1, 3] : List Int).get? 0 = some (-1) →
      (updateBondSv [5, 8] ([10, 11] : List Int) [-1, 3] [12, 13]).1.get? 0 =
        ([5, 8] : List Int).get? 0 ∧
      (updateBondSv [5, 8] ([10, 11] : List Int) [-1, 3] [12, 13]).2.get? 0 =
        ([10, 11] : List Int).get? 0) ∧
    (∀ v, ([-1, 3] : List Int).get? 0 = some v → v ≠ -1 →
      (updateBondSv [5, 8] ([10, 11] : List Int) [-1, 3] [12, 13]).1.get? 0 = some v ∧
      (updateBondSv [5, 8] ([10, 11] : List Int) [-1, 3] [12, 13]).2.get? 0 =
        ([12, 13] : List Int).get? 0) :=
  c9_sentinel_frame [5, 8] [10, 11] [12, 13] [-1, 3] 0
    (by decide) (by decide) (by decide) (by decide)

/-- C10: a pre-embedded 3-axis input with the right site count is
returned unchanged when its feature axis equals feature_dim, and
raises ValueError when the feature axis differs. -/
theorem c10_embed_identity (input_dim feature_dim b n d : Nat)
    (x : Nat → Nat → Nat → Rat) (hn : n = input_dim) :
    (d = feature_dim →
      embed_input input_dim feature_dim (MPSInput.emb b n d x) =
        Except.ok (MPSInput.emb b n d x)) ∧
    (d ≠ feature_dim →
      embed_input input_dim feature_dim (MPSInput.emb b n d x) =
        Except.error EmbedErr.valueErr) := by
  subst hn
  constructor
  · intro hd
    simp [embed_input, hd]
  · intro hd
    simp [embed_input, hd]

/-- Witness: a 3-axis input of shape one by three by two with
input_dim 3 and feature_dim 2 is returned unchanged, and the ValueError
branch is vacuous for it. -/
theorem c10_embed_identity_witness :
    ((2 = 2 → embed_input 3 2 (MPSInput.emb 1 3 2 (fun _ _ _ => 0)) =
        Except.ok (MPSInput.emb 1 3 2 (fun _ _ _ => 0))) ∧
     (2 ≠ 2 → embed_input 3 2 (MPSInput.emb 1 3 2 (fun _ _ _ => 0)) =
        Except.error EmbedErr.valueErr)) :=
  c10_embed_identity 3 2 1 3 2 (fun _ _ _ => 0) rfl

/-- An if-then-else count bound transported along a boolean implication. -/
lemma ite_le_of_imp (m a b : Bool) (h : m = true → (a || b) = true) :
    (if m then 1 else 0) ≤ ((if a then 1 else 0) + (if b then 1 else 0) : Nat) := by
  cases m with
  | false => simp
  | true =>
      have h2 := h rfl
      cases a <;> cases b <;> simp_all

/-- linksOK splits across a head in front of a nonempty chain. -/
lemma linksOK_cons (m c : Ctr) (t : List Ctr) :
    linksOK (m :: c :: t) = ((m.dr == c.dl) && linksOK (c :: t)) := rfl

/-- lastDr ignores elements in front of a nonempty chain. -/
lemma lastDr_cons_cons (m c : Ctr) (t : List Ctr) :
    lastDr (m :: c :: t) = lastDr (c :: t) := by
  simp [lastDr, List.getLast?_cons_cons]

/-- A successful pairwise contraction of linkable neighbours, with the
fields the reduction invariant needs. -/
lemma mul_ok (B : Nat) (a b : Ctr) (hlink : a.dr = b.dl)
    (hba : a.b = 1 ∨ a.b = B) (hbb : b.b = 1 ∨ b.b = B)
    (hno : ¬(a.o ≠ 1 ∧ b.o ≠ 1)) :
    ∃ m, Ctr.mul a b = Except.ok m ∧ m.dl = a.dl ∧ m.dr = b.dr ∧
      (m.b = 1 ∨ m.b = B) ∧ (hasOut m = true → (hasOut a || hasOut b) = true) := by
  have hb3 : ¬(a.b ≠ 1 ∧ b.b ≠ 1 ∧ a.b ≠ b.b) := by
    rintro ⟨h1, h2, h3⟩
    rcases hba with e | e
    · exact h1 e
    · rcases hbb with f | f
      · exact h2 f
      · exact h3 (e.trans f.symm)
  refine ⟨Ctr.mk (if a.b = 1 then b.b else a.b) (if a.o = 1 then b.o else a.o)
      a.dl b.dr
      (fun p w i j => Finset.sum (Finset.range a.dr) (fun k =>
        a.x (if a.b = 1 then 0 else p) (if a.o = 1 then 0 else w) i k *
        b.x (if b.b = 1 then 0 else p) (if b.o = 1 then 0 else w) k j)),
      ?_, rfl, rfl, ?_, ?_⟩
  · rw [Ctr.mul, if_neg (fun hcon => hcon hlink), if_neg hno, if_neg hb3]
  · by_cases h : a.b = 1
    · rw [if_pos h]; exact hbb
    · rw [if_neg h]; exact hba
  · intro hm
    by_cases h : a.o = 1
    · simp only [hasOut, if_pos h] at hm ⊢
      simp [hm]
    · simp only [hasOut, if_neg h] at hm ⊢
      simp [h]

/-- One level of the balanced-tree reduction on a linkable chain
succeeds and preserves the chain invariants: nonempty, adjacent bonds
matching, batches compatible, at most as many output axes, the same end
bond sizes, and length halved rounding up. -/
lemma pairUp_ok (B : Nat) : ∀ (n : Nat) (cs : List Ctr), cs.length ≤ n → cs ≠ [] →
    linksOK cs = true → batchesOK B cs = true → cs.countP hasOut ≤ 1 →
    ∃ cs2, pairUp cs = Except.ok cs2 ∧ cs2 ≠ [] ∧ linksOK cs2 = true ∧
      batchesOK B cs2 = true ∧ cs2.countP hasOut ≤ cs.countP hasOut ∧
      headDl cs2 = headDl cs ∧ lastDr cs2 = lastDr cs ∧
      cs2.length = (cs.length + 1) / 2 := by
  intro n
  induction n with
  | zero =>
      intro cs hlen hne
      cases cs with
      | nil => exact absurd rfl hne
      | cons a t => simp at hlen
  | succ k ih =>
      intro cs hlen hne hlink hbatch hout
      match cs with
      | [c] =>
          exact ⟨[c], rfl, by simp, rfl, hbatch, le_rfl, rfl, rfl, by norm_num⟩
      | a :: b :: rest =>
          have hab : a.dr = b.dl := by
            simp only [linksOK, Bool.and_eq_true, beq_iff_eq] at hlink
            exact hlink.1
          have hlinkbr : linksOK (b :: rest) = true := by
            simp only [linksOK, Bool.and_eq_true] at hlink
            exact hlink.2
          have hba : a.b = 1 ∨ a.b = B := by
            simp only [batchesOK, List.all_cons, Bool.and_eq_true,
              Bool.or_eq_true, beq_iff_eq] at hbatch
            exact hbatch.1
          have hbb : b.b = 1 ∨ b.b = B := by
            simp only [batchesOK, List.all_cons, Bool.and_eq_true,
              Bool.or_eq_true, beq_iff_eq] at hbatch
            exact hbatch.2.1
          have hbrest : batchesOK B rest = true := by
            simp only [batchesOK, List.all_cons, Bool.and_eq_true] at hbatch
            exact hbatch.2.2
          have houtsum : rest.countP hasOut + (if hasOut b then 1 else 0) +
              (if hasOut a then 1 else 0) ≤ 1 := by
            simp only [List.countP_cons] at hout
            omega
          have hno : ¬(a.o ≠ 1 ∧ b.o ≠ 1) := by
            rintro ⟨h1, h2⟩
            have e1 : (if hasOut a then 1 else 0) = (1 : Nat) := by
              simp [hasOut, h1]
            have e2 : (if hasOut b then 1 else 0) = (1 : Nat) := by
              simp [hasOut, h2]
            rw [e1, e2] at houtsum
            omega
          obtain ⟨m, hm, hmdl, hmdr, hmb, hmo⟩ := mul_ok B a b hab hba hbb hno
          cases rest with
          | nil =>
              have hp : pairUp [a, b] = Except.ok [m] := by
                simp only [pairUp, hm]
              refine ⟨[m], hp, by simp, rfl, ?_, ?_, ?_, ?_, by norm_num⟩
              · simp only [batchesOK, List.all_cons, List.all_nil,
                  Bool.and_eq_true, Bool.or_eq_true, beq_iff_eq, and_true]
                exact hmb
              · have h1 := ite_le_of_imp (hasOut m) (hasOut a) (hasOut b) hmo
                simp only [List.countP_cons, List.countP_nil]
                omega
              · exact hmdl
              · exact hmdr
          | cons r rest2 =>
              have hbr : b.dr = r.dl := by
                simp only [linksOK, Bool.and_eq_true, beq_iff_eq] at hlinkbr
                exact hlinkbr.1
              have hlinkrest : linksOK (r :: rest2) = true := by
                simp only [linksOK, Bool.and_eq_true] at hlinkbr
                exact hlinkbr.2
              have hlenrest : (r :: rest2).length ≤ k := by
                simp only [List.length_cons] at hlen ⊢
                omega
              have houtrest : (r :: rest2).countP hasOut ≤ 1 := by
                omega
              obtain ⟨cs2, hpair, hne2, hlink2, hbatch2, hcnt2, hhead2, hlast2, hlen2⟩ :=
                ih (r :: rest2) hlenrest (by simp) hlinkrest hbrest houtrest
              have hp : pairUp (a :: b :: r :: rest2) = Except.ok (m :: cs2) := by
                simp only [pairUp, hm, hpair]
              refine ⟨m :: cs2, hp, by simp, ?_, ?_, ?_, ?_, ?_, ?_⟩
              · cases cs2 with
                | nil => exact absurd rfl hne2
                | cons c2 t2 =>
                    rw [linksOK_cons, Bool.and_eq_true, beq_iff_eq]
                    refine ⟨?_, hlink2⟩
                    have : headDl (c2 :: t2) = c2.dl := rfl
                    rw [hmdr, hbr]
                    rw [this] at hhead2
                    exact hhead2.symm
              · simp only [batchesOK, List.all_cons, Bool.and_eq_true,
                  Bool.or_eq_true, beq_iff_eq]
                refine ⟨?_, ?_⟩
                · rcases hmb with e | e
                  · exact Or.inl e
                  · exact Or.inr e
                · simpa [batchesOK] using hbatch2
              · have h1 := ite_le_of_imp (hasOut m) (hasOut a) (hasOut b) hmo
                simp only [List.countP_cons] at hcnt2 ⊢
                omega
              · exact hmdl
              · cases cs2 with
                | nil => exact absurd rfl hne2
                | cons c2 t2 =>
                    rw [lastDr_cons_cons, hlast2, lastDr_cons_cons, lastDr_cons_cons]
              · simp only [List.length_cons, hlen2] at *
                omega

/-- The balanced-tree reduction of a linkable nonempty chain succeeds,
and the reduced tensor keeps the left bond of the first contractable
and the right bond of the last one. -/
lemma reduceParGo_ok (B : Nat) : ∀ (fuel : Nat) (cs : List Ctr),
    cs.length ≤ fuel + 1 → cs ≠ [] → linksOK cs = true → batchesOK B cs = true →
    cs.countP hasOut ≤ 1 →
    ∃ t, reduceParGo fuel cs = Except.ok t ∧ t.dl = headDl cs ∧ t.dr = lastDr cs := by
  intro fuel
  induction fuel with
  | zero =>
      intro cs hlen hne hlink hbatch hout
      match cs with
      | [c] => exact ⟨c, rfl, rfl, rfl⟩
      | a :: b :: rest => simp at hlen
  | succ k ih =>
      intro cs hlen hne hlink hbatch hout
      match cs with
      | [c] => exact ⟨c, rfl, rfl, rfl⟩
      | a :: b :: rest =>
          obtain ⟨cs2, hpair, hne2, hlink2, hbatch2, hcnt2, hhead2, hlast2, hlen2⟩ :=
            pairUp_ok B (a :: b :: rest).length (a :: b :: rest) le_rfl (by simp)
              hlink hbatch hout
          have hfuel : cs2.length ≤ k + 1 := by
            rw [hlen2]
            simp only [List.length_cons] at hlen ⊢
            omega
          have hcnt3 : cs2.countP hasOut ≤ 1 := le_trans hcnt2 hout
          obtain ⟨t, hred, hdl, hdr⟩ := ih cs2 hfuel hne2 hlink2 hbatch2 hcnt3
          refine ⟨t, ?_, ?_, ?_⟩
          · simp only [reduceParGo, hpair]
            exact hred
          · rw [hdl, hhead2]
          · rw [hdr, hlast2]

/-- C8: on a nonempty chain of per-module contractables with matching
adjacent bonds, compatible batches and at most one output axis, the
periodic branch reduces exactly that list (no boundary vectors are
inserted), the reduced tensor keeps the outer bond sizes of the chain
ends, and the call traces the two remaining bond axes (summing the
diagonal) when they are equal in size and fails with a shape error when
they differ. -/
theorem c8_periodic_trace (B : Nat) (cs : List Ctr) (hne : cs ≠ [])
    (hlink : linksOK cs = true) (hbatch : batchesOK B cs = true)
    (hout : cs.countP hasOut ≤ 1) :
    ∃ t, reducePar cs = Except.ok t ∧ t.dl = headDl cs ∧ t.dr = lastDr cs ∧
      periodicForward cs =
        (if t.dl = t.dr then
          Except.ok (TraceOut.mk t.b t.o
            (fun p w => Finset.sum (Finset.range t.dl) (fun i => t.x p w i i)))
        else Except.error CtrErr.shape) := by
  obtain ⟨t, hr, h1, h2⟩ :=
    reduceParGo_ok B cs.length cs (by omega) hne hlink hbatch hout
  have hr2 : reducePar cs = Except.ok t := by
    rw [reducePar]
    exact hr
  refine ⟨t, hr2, h1, h2, ?_⟩
  simp only [periodicForward, hr2, traceLR]

/-- Witness: a two-module chain of a batched matrix and an unbatched
output core with matching inner bond of size three and outer bonds of
size one reduces and traces successfully. -/
theorem c8_periodic_trace_witness :
    ([ctrA, ctrB] ≠ ([] : List Ctr)) ∧ linksOK [ctrA, ctrB] = true ∧
    batchesOK 2 [ctrA, ctrB] = true ∧ List.countP hasOut [ctrA, ctrB] ≤ 1 ∧
    (∃ t, reducePar [ctrA, ctrB] = Except.ok t ∧ t.dl = headDl [ctrA, ctrB] ∧
      t.dr = lastDr [ctrA, ctrB] ∧
      periodicForward [ctrA, ctrB] =
        (if t.dl = t.dr then
          Except.ok (TraceOut.mk t.b t.o
            (fun p w => Finset.sum (Finset.range t.dl) (fun i => t.x p w i i)))
        else Except.error CtrErr.shape)) :=
  ⟨by simp, by decide, by decide, by decide,
   c8_periodic_trace 2 [ctrA, ctrB] (by simp) (by decide) (by decide) (by decide)⟩

/-- Inversion of a successful pairwise contraction: the three guard
conditions fail and the result is the explicit contraction value. -/
lemma mul_ok_inv (a b m : Ctr) (h : Ctr.mul a b = Except.ok m) :
    a.dr = b.dl ∧ ¬(a.o ≠ 1 ∧ b.o ≠ 1) ∧ ¬(a.b ≠ 1 ∧ b.b ≠ 1 ∧ a.b ≠ b.b) ∧
    m = Ctr.mk (if a.b = 1 then b.b else a.b) (if a.o = 1 then b.o else a.o)
      a.dl b.dr
      (fun p w i j => Finset.sum (Finset.range a.dr) (fun k =>
        a.x (if a.b = 1 then 0 else p) (if a.o = 1 then 0 else w) i k *
        b.x (if b.b = 1 then 0 else p) (if b.o = 1 then 0 else w) k j)) := by
  by_cases h1 : a.dr ≠ b.dl
  · rw [Ctr.mul, if_pos h1] at h
    exact absurd h (by simp)
  by_cases h2 : a.o ≠ 1 ∧ b.o ≠ 1
  · rw [Ctr.mul, if_neg h1, if_pos h2] at h
    exact absurd h (by simp)
  by_cases h3 : a.b ≠ 1 ∧ b.b ≠ 1 ∧ a.b ≠ b.b
  · rw [Ctr.mul, if_neg h1, if_neg h2, if_pos h3] at h
    exact absurd h (by simp)
  rw [Ctr.mul, if_neg h1, if_neg h2, if_neg h3] at h
  exact ⟨not_ne_iff.mp h1, h2, h3, (Except.ok.inj h).symm⟩

/-- The den entries of a contraction are the bond contraction of the
den entries of the factors: the broadcast index selections compose. -/
lemma den_mul (a b m : Ctr) (h : Ctr.mul a b = Except.ok m) (p w i j : Nat) :
    den m p w i j =
      Finset.sum (Finset.range a.dr)
        (fun k => den a p w i k * den b p w k j) := by
  obtain ⟨h1, h2, h3, h4⟩ := mul_ok_inv a b m h
  subst h4
  simp only [den]
  have ca : (if a.b = 1 then 0 else
        (if (if a.b = 1 then b.b else a.b) = 1 then 0 else p)) =
      (if a.b = 1 then 0 else p) := by
    by_cases h5 : a.b = 1 <;> simp [h5]
  have cb : (if b.b = 1 then 0 else
        (if (if a.b = 1 then b.b else a.b) = 1 then 0 else p)) =
      (if b.b = 1 then 0 else p) := by
    by_cases h5 : b.b = 1 <;> by_cases h6 : a.b = 1 <;> simp [h5, h6]
  have da : (if a.o = 1 then 0 else
        (if (if a.o = 1 then b.o else a.o) = 1 then 0 else w)) =
      (if a.o = 1 then 0 else w) := by
    by_cases h5 : a.o = 1 <;> simp [h5]
  have db : (if b.o = 1 then 0 else
        (if (if a.o = 1 then b.o else a.o) = 1 then 0 else w)) =
      (if b.o = 1 then 0 else w) := by
    by_cases h5 : b.o = 1 <;> by_cases h6 : a.o = 1 <;> simp [h5, h6]
  rw [ca, cb, da, db]

/-- Interchange of the two bond contractions of a three-factor chain
piece. -/
lemma sum_assoc_slice (d1 d2 : Nat) (X A2 B2 : Nat → Nat → Rat) (i j : Nat) :
    Finset.sum (Finset.range d2) (fun k2 =>
        (Finset.sum (Finset.range d1) (fun k1 => X i k1 * A2 k1 k2)) * B2 k2 j) =
    Finset.sum (Finset.range d1) (fun k1 =>
        X i k1 * Finset.sum (Finset.range d2) (fun k2 => A2 k1 k2 * B2 k2 j)) := by
  simp only [Finset.sum_mul, Finset.mul_sum]
  rw [Finset.sum_comm]
  apply Finset.sum_congr rfl
  intro k1 _
  apply Finset.sum_congr rfl
  intro k2 _
  ring

/-- Associativity of the pairwise contraction on defined products: when
the left-grouped product of a three-element stretch is defined and the
inner pair also contracts on its own, regrouping to the right gives the
same value. -/
lemma assoc_ok (x a b m1 m12 m : Ctr)
    (h1 : Ctr.mul x a = Except.ok m1) (h2 : Ctr.mul m1 b = Except.ok m12)
    (hm : Ctr.mul a b = Except.ok m) :
    Ctr.mul x m = Except.ok m12 := by
  obtain ⟨e1, e2, e3, e4⟩ := mul_ok_inv x a m1 h1
  obtain ⟨f1, f2, f3, f4⟩ := mul_ok_inv m1 b m12 h2
  obtain ⟨g1, g2, g3, g4⟩ := mul_ok_inv a b m hm
  have e4b : m1.b = if x.b = 1 then a.b else x.b := by rw [e4]
  have e4o : m1.o = if x.o = 1 then a.o else x.o := by rw [e4]
  have e4dl : m1.dl = x.dl := by rw [e4]
  have e4dr : m1.dr = a.dr := by rw [e4]
  have g4b : m.b = if a.b = 1 then b.b else a.b := by rw [g4]
  have g4o : m.o = if a.o = 1 then b.o else a.o := by rw [g4]
  have g4dl : m.dl = a.dl := by rw [g4]
  have g4dr : m.dr = b.dr := by rw [g4]
  have c1 : x.dr = m.dl := by rw [g4dl]; exact e1
  have c2 : ¬(x.o ≠ 1 ∧ m.o ≠ 1) := by
    rintro ⟨hx, hmo⟩
    rw [g4o] at hmo
    by_cases ha : a.o = 1
    · rw [if_pos ha] at hmo
      apply f2
      refine ⟨?_, hmo⟩
      rw [e4o, if_neg hx]
      exact hx
    · exact e2 ⟨hx, ha⟩
  have c3 : ¬(x.b ≠ 1 ∧ m.b ≠ 1 ∧ x.b ≠ m.b) := by
    rintro ⟨hx, hm1, hxm⟩
    rw [g4b] at hm1 hxm
    by_cases ha : a.b = 1
    · rw [if_pos ha] at hm1 hxm
      apply f3
      refine ⟨?_, hm1, ?_⟩
      · rw [e4b, if_neg hx]
        exact hx
      · rw [e4b, if_neg hx]
        exact hxm
    · rw [if_neg ha] at hm1 hxm
      exact e3 ⟨hx, ha, hxm⟩
  rw [Ctr.mul, if_neg (not_ne_iff.mpr c1), if_neg c2, if_neg c3]
  rw [f4]
  refine congrArg Except.ok ?_
  rw [Ctr.mk.injEq]
  refine ⟨?_, ?_, ?_, ?_, ?_⟩
  · rw [g4b, e4b]
    by_cases hx : x.b = 1 <;> by_cases ha : a.b = 1 <;> simp [hx, ha]
  · rw [g4o, e4o]
    by_cases hx : x.o = 1 <;> by_cases ha : a.o = 1 <;> simp [hx, ha]
  · exact e4dl.symm
  · exact g4dr
  · funext p w i j
    show Finset.sum (Finset.range x.dr) (fun k => den x p w i k * den m p w k j) =
      Finset.sum (Finset.range m1.dr)
        (fun k2 => den m1 p w i k2 * den b p w k2 j)
    rw [e4dr]
    calc Finset.sum (Finset.range x.dr) (fun k => den x p w i k * den m p w k j)
        = Finset.sum (Finset.range x.dr) (fun k1 => den x p w i k1 *
            Finset.sum (Finset.range a.dr)
              (fun k2 => den a p w k1 k2 * den b p w k2 j)) := by
          apply Finset.sum_congr rfl
          intro k1 _
          rw [den_mul a b m hm]
      _ = Finset.sum (Finset.range a.dr) (fun k2 =>
            (Finset.sum (Finset.range x.dr)
              (fun k1 => den x p w i k1 * den a p w k1 k2)) * den b p w k2 j) :=
          (sum_assoc_slice x.dr a.dr (fun i2 k1 => den x p w i2 k1)
            (fun k1 k2 => den a p w k1 k2) (fun k2 j2 => den b p w k2 j2) i j).symm
      _ = Finset.sum (Finset.range a.dr)
            (fun k2 => den m1 p w i k2 * den b p w k2 j) := by
          apply Finset.sum_congr rfl
          intro k2 _
          rw [den_mul x a m1 h1]

/-- Converse regrouping on defined products: when the inner pair
contracts and the accumulated value contracts with the pair product,
the left-grouped two-step product is also defined with the same
value. -/
lemma assoc_ok_rev (acc l r m m12 : Ctr)
    (hm : Ctr.mul l r = Except.ok m) (h2 : Ctr.mul acc m = Except.ok m12) :
    ∃ n1, Ctr.mul acc l = Except.ok n1 ∧ Ctr.mul n1 r = Except.ok m12 := by
  obtain ⟨g1, g2, g3, g4⟩ := mul_ok_inv l r m hm
  obtain ⟨k1, k2, k3, _⟩ := mul_ok_inv acc m m12 h2
  have g4b : m.b = if l.b = 1 then r.b else l.b := by rw [g4]
  have g4o : m.o = if l.o = 1 then r.o else l.o := by rw [g4]
  have g4dl : m.dl = l.dl := by rw [g4]
  have c1 : acc.dr = l.dl := by rw [← g4dl]; exact k1
  have c2 : ¬(acc.o ≠ 1 ∧ l.o ≠ 1) := by
    rintro ⟨hx, hl⟩
    apply k2
    refine ⟨hx, ?_⟩
    rw [g4o, if_neg hl]
    exact hl
  have c3 : ¬(acc.b ≠ 1 ∧ l.b ≠ 1 ∧ acc.b ≠ l.b) := by
    rintro ⟨hx, hl, hxl⟩
    apply k3
    refine ⟨hx, ?_, ?_⟩ <;> rw [g4b, if_neg hl]
    · exact hl
    · exact hxl
  have hn : ∃ n1, Ctr.mul acc l = Except.ok n1 := by
    rw [Ctr.mul, if_neg (not_ne_iff.mpr c1), if_neg c2, if_neg c3]
    exact ⟨_, rfl⟩
  obtain ⟨n1, hn1⟩ := hn
  obtain ⟨_, _, _, p4⟩ := mul_ok_inv acc l n1 hn1
  have p4b : n1.b = if acc.b = 1 then l.b else acc.b := by rw [p4]
  have p4o : n1.o = if acc.o = 1 then l.o else acc.o := by rw [p4]
  have p4dr : n1.dr = l.dr := by rw [p4]
  have d1 : n1.dr = r.dl := by rw [p4dr]; exact g1
  have d2 : ¬(n1.o ≠ 1 ∧ r.o ≠ 1) := by
    rintro ⟨hn2, hr⟩
    rw [p4o] at hn2
    by_cases hao : acc.o = 1
    · rw [if_pos hao] at hn2
      exact g2 ⟨hn2, hr⟩
    · rw [if_neg hao] at hn2
      apply k2
      refine ⟨hn2, ?_⟩
      rw [g4o]
      by_cases hlo : l.o = 1
      · rw [if_pos hlo]
        exact hr
      · rw [if_neg hlo]
        exact hlo
  have d3 : ¬(n1.b ≠ 1 ∧ r.b ≠ 1 ∧ n1.b ≠ r.b) := by
    rintro ⟨hn2, hr, hnr⟩
    rw [p4b] at hn2 hnr
    by_cases hab : acc.b = 1
    · rw [if_pos hab] at hn2 hnr
      exact g3 ⟨hn2, hr, hnr⟩
    · rw [if_neg hab] at hn2 hnr
      apply k3
      refine ⟨hn2, ?_, ?_⟩
      · rw [g4b]
        by_cases hlb : l.b = 1
        · rw [if_pos hlb]
          exact hr
        · rw [if_neg hlb]
          exact hlb
      · rw [g4b]
        by_cases hlb : l.b = 1
        · rw [if_pos hlb]
          exact hnr
        · rw [if_neg hlb]
          have hlr : l.b = r.b := by
            by_contra hc
            exact g3 ⟨hlb, hr, hc⟩
          rw [hlr]
          exact hnr
  have hd : ∃ n12, Ctr.mul n1 r = Except.ok n12 := by
    rw [Ctr.mul, if_neg (not_ne_iff.mpr d1), if_neg d2, if_neg d3]
    exact ⟨_, rfl⟩
  obtain ⟨n12, hn12⟩ := hd
  have h5 := assoc_ok acc l r n1 n12 m hn1 hn12 hm
  rw [h2] at h5
  have h6 := Except.ok.inj h5
  rw [h6]
  exact ⟨n1, hn1, hn12⟩

/-- From two successful fold steps across an adjacent pair, the pair
itself contracts on its own. -/
lemma pair_ok_of_steps (acc a b m1 m12 : Ctr)
    (h1 : Ctr.mul acc a = Except.ok m1) (h2 : Ctr.mul m1 b = Except.ok m12) :
    ∃ m, Ctr.mul a b = Except.ok m := by
  obtain ⟨e1, e2, e3, e4⟩ := mul_ok_inv acc a m1 h1
  obtain ⟨f1, f2, f3, _⟩ := mul_ok_inv m1 b m12 h2
  have e4b : m1.b = if acc.b = 1 then a.b else acc.b := by rw [e4]
  have e4o : m1.o = if acc.o = 1 then a.o else acc.o := by rw [e4]
  have e4dr : m1.dr = a.dr := by rw [e4]
  have c1 : a.dr = b.dl := by rw [← e4dr]; exact f1
  have c2 : ¬(a.o ≠ 1 ∧ b.o ≠ 1) := by
    rintro ⟨ha, hb⟩
    apply f2
    refine ⟨?_, hb⟩
    rw [e4o]
    by_cases hac : acc.o = 1
    · rw [if_pos hac]
      exact ha
    · rw [if_neg hac]
      exact hac
  have c3 : ¬(a.b ≠ 1 ∧ b.b ≠ 1 ∧ a.b ≠ b.b) := by
    rintro ⟨ha, hb, hab⟩
    by_cases hac : acc.b = 1
    · apply f3
      refine ⟨?_, hb, ?_⟩ <;> rw [e4b, if_pos hac]
      · exact ha
      · exact hab
    · have hacca : acc.b = a.b := by
        by_contra hc
        exact e3 ⟨hac, ha, hc⟩
      apply f3
      refine ⟨?_, hb, ?_⟩ <;> rw [e4b, if_neg hac, hacca]
      · exact ha
      · exact hab
  rw [Ctr.mul, if_neg (not_ne_iff.mpr c1), if_neg c2, if_neg c3]
  exact ⟨_, rfl⟩

/-- A successful sequential fold across a cons decomposes into a
successful first contraction and a successful remaining fold. -/
lemma go_ok_cons (acc c : Ctr) (rest : List Ctr) (t : Ctr)
    (h : reduceSeqGo acc (c :: rest) = Except.ok t) :
    ∃ m, Ctr.mul acc c = Except.ok m ∧ reduceSeqGo m rest = Except.ok t := by
  simp only [reduceSeqGo] at h
  cases hm : Ctr.mul acc c with
  | error e =>
      rw [hm] at h
      exact absurd h (by simp)
  | ok m =>
      rw [hm] at h
      exact ⟨m, rfl, h⟩

/-- Replacing an adjacent pair by another pair with the same
contraction value, the same end bond sizes and the same batch and
output axes preserves every successful sequential fold, wherever the
pair sits in the chain. -/
lemma go_pair_replace (a b l r : Ctr)
    (hpair : Ctr.mul a b = Ctr.mul l r) :
    ∀ (xs ys : List Ctr) (acc t : Ctr),
      reduceSeqGo acc (xs ++ a :: b :: ys) = Except.ok t →
      reduceSeqGo acc (xs ++ l :: r :: ys) = Except.ok t := by
  intro xs
  induction xs with
  | nil =>
      intro ys acc t h
      rw [List.nil_append] at h
      obtain ⟨m1, hm1, hrest⟩ := go_ok_cons acc a (b :: ys) t h
      obtain ⟨m12, hm12, hys⟩ := go_ok_cons m1 b ys t hrest
      obtain ⟨m, hm⟩ := pair_ok_of_steps acc a b m1 m12 hm1 hm12
      have haccm : Ctr.mul acc m = Except.ok m12 :=
        assoc_ok acc a b m1 m12 m hm1 hm12 hm
      have hlr : Ctr.mul l r = Except.ok m := by
        rw [← hpair]
        exact hm
      obtain ⟨n1, hn1, hn12⟩ := assoc_ok_rev acc l r m m12 hlr haccm
      rw [List.nil_append]
      simp only [reduceSeqGo, hn1, hn12]
      exact hys
  | cons c0 xs2 ih =>
      intro ys acc t h
      rw [List.cons_append] at h
      obtain ⟨m0, hm0, hrest⟩ := go_ok_cons acc c0 (xs2 ++ a :: b :: ys) t h
      rw [List.cons_append]
      simp only [reduceSeqGo, hm0]
      exact ih ys m0 t hrest

/-- The pair replacement at the level of the whole sequential
reduction, covering a pair at the very head of the chain as well. -/
lemma reduceSeq_pair_replace (a b l r : Ctr)
    (hpair : Ctr.mul a b = Ctr.mul l r) :
    ∀ (xs ys : List Ctr) (t : Ctr),
      reduceSeq (xs ++ a :: b :: ys) = Except.ok t →
      reduceSeq (xs ++ l :: r :: ys) = Except.ok t := by
  intro xs ys t h
  cases xs with
  | nil =>
      rw [List.nil_append] at h
      rw [List.nil_append]
      simp only [reduceSeq] at h ⊢
      obtain ⟨m, hm, hys⟩ := go_ok_cons a b ys t h
      have hlr : Ctr.mul l r = Except.ok m := by
        rw [← hpair]
        exact hm
      simp only [reduceSeqGo, hlr]
      exact hys
  | cons c0 xs2 =>
      rw [List.cons_append] at h
      rw [List.cons_append]
      simp only [reduceSeq] at h ⊢
      exact go_pair_replace a b l r hpair xs2 ys c0 t h

/-- Rescaling by factor one is the identity on contractables. -/
lemma ctr_smul_one (c : Ctr) : Ctr.smul 1 c = c := by
  cases c with
  | mk b o dl dr x =>
      show Ctr.mk b o dl dr (fun p w2 i j => 1 * x p w2 i j) = Ctr.mk b o dl dr x
      refine congrArg (Ctr.mk b o dl dr) ?_
      funext p w2 i j
      rw [one_mul]

/-- Two rescalings compose into one by the product factor. -/
lemma ctr_smul_smul (q1 q2 : Rat) (c : Ctr) :
    Ctr.smul q1 (Ctr.smul q2 c) = Ctr.smul (q1 * q2) c := by
  cases c with
  | mk b o dl dr x =>
      show Ctr.mk b o dl dr (fun p w2 i j => q1 * (q2 * x p w2 i j)) =
        Ctr.mk b o dl dr (fun p w2 i j => q1 * q2 * x p w2 i j)
      refine congrArg (Ctr.mk b o dl dr) ?_
      funext p w2 i j
      rw [mul_assoc]

/-- Rescaling the left factor commutes with the pairwise contraction:
the contraction is linear in each argument and the guard fields are
untouched by the rescale. -/
lemma ctrMul_smul_left (q : Rat) (a c : Ctr) :
    Ctr.mul (Ctr.smul q a) c = Except.map (Ctr.smul q) (Ctr.mul a c) := by
  by_cases h1 : a.dr ≠ c.dl
  · have h1s : (Ctr.smul q a).dr ≠ c.dl := h1
    rw [Ctr.mul, if_pos h1s, Ctr.mul, if_pos h1]
    rfl
  · have h1s : ¬((Ctr.smul q a).dr ≠ c.dl) := h1
    by_cases h2 : a.o ≠ 1 ∧ c.o ≠ 1
    · have h2s : (Ctr.smul q a).o ≠ 1 ∧ c.o ≠ 1 := h2
      rw [Ctr.mul, if_neg h1s, if_pos h2s, Ctr.mul, if_neg h1, if_pos h2]
      rfl
    · have h2s : ¬((Ctr.smul q a).o ≠ 1 ∧ c.o ≠ 1) := h2
      by_cases h3 : a.b ≠ 1 ∧ c.b ≠ 1 ∧ a.b ≠ c.b
      · have h3s : (Ctr.smul q a).b ≠ 1 ∧ c.b ≠ 1 ∧ (Ctr.smul q a).b ≠ c.b := h3
        rw [Ctr.mul, if_neg h1s, if_neg h2s, if_pos h3s,
          Ctr.mul, if_neg h1, if_neg h2, if_pos h3]
        rfl
      · have h3s : ¬((Ctr.smul q a).b ≠ 1 ∧ c.b ≠ 1 ∧ (Ctr.smul q a).b ≠ c.b) := h3
        rw [Ctr.mul, if_neg h1s, if_neg h2s, if_neg h3s,
          Ctr.mul, if_neg h1, if_neg h2, if_neg h3]
        simp only [Except.map]
        refine congrArg Except.ok ?_
        rw [Ctr.mk.injEq]
        refine ⟨rfl, rfl, rfl, rfl, ?_⟩
        funext p w2 i j
        show Finset.sum (Finset.range a.dr) (fun k =>
            q * a.x (if a.b = 1 then 0 else p) (if a.o = 1 then 0 else w2) i k *
              c.x (if c.b = 1 then 0 else p) (if c.o = 1 then 0 else w2) k j) =
          q * Finset.sum (Finset.range a.dr) (fun k =>
            a.x (if a.b = 1 then 0 else p) (if a.o = 1 then 0 else w2) i k *
              c.x (if c.b = 1 then 0 else p) (if c.o = 1 then 0 else w2) k j)
        rw [Finset.mul_sum]
        refine Finset.sum_congr rfl (fun k hk => ?_)
        ring

/-- Rescaling the right factor commutes with the pairwise contraction
in the same way. -/
lemma ctrMul_smul_right (q : Rat) (a c : Ctr) :
    Ctr.mul a (Ctr.smul q c) = Except.map (Ctr.smul q) (Ctr.mul a c) := by
  by_cases h1 : a.dr ≠ c.dl
  · have h1s : a.dr ≠ (Ctr.smul q c).dl := h1
    rw [Ctr.mul, if_pos h1s, Ctr.mul, if_pos h1]
    rfl
  · have h1s : ¬(a.dr ≠ (Ctr.smul q c).dl) := h1
    by_cases h2 : a.o ≠ 1 ∧ c.o ≠ 1
    · have h2s : a.o ≠ 1 ∧ (Ctr.smul q c).o ≠ 1 := h2
      rw [Ctr.mul, if_neg h1s, if_pos h2s, Ctr.mul, if_neg h1, if_pos h2]
      rfl
    · have h2s : ¬(a.o ≠ 1 ∧ (Ctr.smul q c).o ≠ 1) := h2
      by_cases h3 : a.b ≠ 1 ∧ c.b ≠ 1 ∧ a.b ≠ c.b
      · have h3s : a.b ≠ 1 ∧ (Ctr.smul q c).b ≠ 1 ∧ a.b ≠ (Ctr.smul q c).b := h3
        rw [Ctr.mul, if_neg h1s, if_neg h2s, if_pos h3s,
          Ctr.mul, if_neg h1, if_neg h2, if_pos h3]
        rfl
      · have h3s : ¬(a.b ≠ 1 ∧ (Ctr.smul q c).b ≠ 1 ∧ a.b ≠ (Ctr.smul q c).b) := h3
        rw [Ctr.mul, if_neg h1s, if_neg h2s, if_neg h3s,
          Ctr.mul, if_neg h1, if_neg h2, if_neg h3]
        simp only [Except.map]
        refine congrArg Except.ok ?_
        rw [Ctr.mk.injEq]
        refine ⟨rfl, rfl, rfl, rfl, ?_⟩
        funext p w2 i j
        show Finset.sum (Finset.range a.dr) (fun k =>
            a.x (if a.b = 1 then 0 else p) (if a.o = 1 then 0 else w2) i k *
              (q * c.x (if c.b = 1 then 0 else p) (if c.o = 1 then 0 else w2) k j)) =
          q * Finset.sum (Finset.range a.dr) (fun k =>
            a.x (if a.b = 1 then 0 else p) (if a.o = 1 then 0 else w2) i k *
              c.x (if c.b = 1 then 0 else p) (if c.o = 1 then 0 else w2) k j)
        rw [Finset.mul_sum]
        refine Finset.sum_congr rfl (fun k hk => ?_)
        ring

/-- A rescale of the running accumulator factors out of the whole
sequential fold. -/
lemma go_smul_acc (q : Rat) : ∀ (cs : List Ctr) (acc : Ctr),
    reduceSeqGo (Ctr.smul q acc) cs = Except.map (Ctr.smul q) (reduceSeqGo acc cs) := by
  intro cs
  induction cs with
  | nil => intro acc; rfl
  | cons c rest ih =>
      intro acc
      simp only [reduceSeqGo]
      rw [ctrMul_smul_left]
      cases hm : Ctr.mul acc c with
      | error e => simp [Except.map]
      | ok m =>
          simp only [Except.map]
          exact ih m

/-- Rescaling every element of the chain factors out of the sequential
fold as the product of the factors. -/
lemma go_zip_smul : ∀ (qs : List Rat) (cs : List Ctr) (acc : Ctr),
    qs.length = cs.length →
    reduceSeqGo acc (List.zipWith Ctr.smul qs cs) =
      Except.map (Ctr.smul qs.prod) (reduceSeqGo acc cs) := by
  intro qs
  induction qs with
  | nil =>
      intro cs acc hlen
      have hcs : cs = [] := List.length_eq_zero.mp hlen.symm
      subst hcs
      simp [reduceSeqGo, Except.map, ctr_smul_one]
  | cons q qs2 ih =>
      intro cs acc hlen
      cases cs with
      | nil => exact absurd hlen (by simp)
      | cons c cs2 =>
          have hlen2 : qs2.length = cs2.length := by simpa using hlen
          rw [List.zipWith_cons_cons]
          simp only [reduceSeqGo]
          rw [ctrMul_smul_right]
          cases hm : Ctr.mul acc c with
          | error e => simp [Except.map]
          | ok m =>
              simp only [Except.map]
              rw [go_smul_acc, ih cs2 m hlen2, List.prod_cons]
              cases hr : reduceSeqGo m cs2 with
              | error e => simp [Except.map]
              | ok t => simp [Except.map, ctr_smul_smul]

/-- The rescale step is invisible to the reduction whenever the scale
factors multiply to one: the value-level content of the unmerge rescale
(lines 502-512), whose factors exp(mean - log norm) have product
exp(sum of deviations from the mean) = exp 0 = 1. -/
lemma reduceSeq_smul_inv (qs : List Rat) (cs : List Ctr)
    (hlen : qs.length = cs.length) (hprod : qs.prod = 1) :
    reduceSeq (List.zipWith Ctr.smul qs cs) = reduceSeq cs := by
  cases qs with
  | nil =>
      have hcs : cs = [] := List.length_eq_zero.mp hlen.symm
      subst hcs
      rfl
  | cons q qs2 =>
      cases cs with
      | nil => exact absurd hlen (by simp)
      | cons c cs2 =>
          have hlen2 : qs2.length = cs2.length := by simpa using hlen
          rw [List.zipWith_cons_cons]
          simp only [reduceSeq]
          rw [go_smul_acc, go_zip_smul qs2 cs2 c hlen2]
          have hq : q * qs2.prod = 1 := by
            rw [List.prod_cons] at hprod
            exact hprod
          cases hr : reduceSeqGo c cs2 with
          | error e => simp [Except.map]
          | ok t =>
              simp only [Except.map]
              rw [ctr_smul_smul, hq, ctr_smul_one]

/-- Double-sum rearrangement for the contraction of two single-input
contractables: the shared bond sum distributes over both feature
sums. -/
lemma sum_pair_swap (D df dg : Nat) (F G : Nat → Nat → Rat) (a b : Nat → Rat) :
    Finset.sum (Finset.range D) (fun u =>
      (Finset.sum (Finset.range df) (fun i => F u i * a i)) *
      (Finset.sum (Finset.range dg) (fun j => G u j * b j))) =
    Finset.sum (Finset.range df) (fun i =>
      Finset.sum (Finset.range dg) (fun j =>
        (Finset.sum (Finset.range D) (fun u => F u i * G u j)) * (a i * b j))) := by
  have h1 : ∀ u, (Finset.sum (Finset.range df) (fun i => F u i * a i)) *
      (Finset.sum (Finset.range dg) (fun j => G u j * b j)) =
      Finset.sum (Finset.range df) (fun i =>
        Finset.sum (Finset.range dg) (fun j => (F u i * a i) * (G u j * b j))) := by
    intro u
    rw [Finset.sum_mul_sum]
  rw [Finset.sum_congr rfl (fun u _ => h1 u)]
  rw [Finset.sum_comm]
  refine Finset.sum_congr rfl (fun i hi => ?_)
  rw [Finset.sum_comm]
  refine Finset.sum_congr rfl (fun j hj => ?_)
  rw [Finset.sum_mul]
  refine Finset.sum_congr rfl (fun u hu => ?_)
  ring

/-- Sum rearrangement for an output core contracted with a single-input
core on its right. -/
lemma sum_single_swap (D df : Nat) (F : Nat → Rat) (G : Nat → Nat → Rat)
    (a : Nat → Rat) :
    Finset.sum (Finset.range D) (fun u =>
      F u * Finset.sum (Finset.range df) (fun i => G u i * a i)) =
    Finset.sum (Finset.range df) (fun i =>
      (Finset.sum (Finset.range D) (fun u => F u * G u i)) * a i) := by
  have h1 : ∀ u, F u * Finset.sum (Finset.range df) (fun i => G u i * a i) =
      Finset.sum (Finset.range df) (fun i => F u * (G u i * a i)) := by
    intro u
    rw [Finset.mul_sum]
  rw [Finset.sum_congr rfl (fun u _ => h1 u)]
  rw [Finset.sum_comm]
  refine Finset.sum_congr rfl (fun i hi => ?_)
  rw [Finset.sum_mul]
  refine Finset.sum_congr rfl (fun u hu => ?_)
  ring

/-- Sum rearrangement for a single-input core contracted with an output
core on its right. -/
lemma sum_single_swap_r (D df : Nat) (F : Nat → Rat) (G : Nat → Nat → Rat)
    (a : Nat → Rat) :
    Finset.sum (Finset.range D) (fun u =>
      (Finset.sum (Finset.range df) (fun i => G u i * a i)) * F u) =
    Finset.sum (Finset.range df) (fun i =>
      (Finset.sum (Finset.range D) (fun u => G u i * F u)) * a i) := by
  have h1 : ∀ u, (Finset.sum (Finset.range df) (fun i => G u i * a i)) * F u =
      Finset.sum (Finset.range df) (fun i => (G u i * a i) * F u) := by
    intro u
    rw [Finset.sum_mul]
  rw [Finset.sum_congr rfl (fun u _ => h1 u)]
  rw [Finset.sum_comm]
  refine Finset.sum_congr rfl (fun i hi => ?_)
  rw [Finset.sum_mul]
  refine Finset.sum_congr rfl (fun u hu => ?_)
  ring

/-- The contraction of the two contractables an adjacent pair of
single-input cores emits depends on the pair only through the merged
tensor of InputRegion.merge. -/
lemma siteCtr_mul (Bt dl D dr df dg : Nat) (A Bc : Nat → Nat → Nat → Rat)
    (v w : Nat → Nat → Rat) :
    Ctr.mul (siteCtr Bt dl D df A v) (siteCtr Bt D dr dg Bc w) =
      Except.ok (Ctr.mk Bt 1 dl dr (fun p _ l r =>
        Finset.sum (Finset.range df) (fun i =>
          Finset.sum (Finset.range dg) (fun j =>
            mergePair D A Bc l r i j *
              (v (if Bt = 1 then 0 else p) i *
                w (if Bt = 1 then 0 else p) j))))) := by
  have c1 : (siteCtr Bt dl D df A v).dr = (siteCtr Bt D dr dg Bc w).dl := rfl
  have c2 : ¬((siteCtr Bt dl D df A v).o ≠ 1 ∧ (siteCtr Bt D dr dg Bc w).o ≠ 1) := by
    rintro ⟨h, _⟩
    exact h rfl
  have c3 : ¬((siteCtr Bt dl D df A v).b ≠ 1 ∧ (siteCtr Bt D dr dg Bc w).b ≠ 1 ∧
      (siteCtr Bt dl D df A v).b ≠ (siteCtr Bt D dr dg Bc w).b) := by
    rintro ⟨_, _, h⟩
    exact h rfl
  rw [Ctr.mul, if_neg (not_ne_iff.mpr c1), if_neg c2, if_neg c3]
  refine congrArg Except.ok ?_
  rw [Ctr.mk.injEq]
  refine ⟨?_, rfl, rfl, rfl, ?_⟩
  · show (if Bt = 1 then Bt else Bt) = Bt
    exact ite_self Bt
  · funext p w2 l r
    show Finset.sum (Finset.range D) (fun u =>
        (Finset.sum (Finset.range df) (fun i =>
          A l u i * v (if Bt = 1 then 0 else p) i)) *
        (Finset.sum (Finset.range dg) (fun j =>
          Bc u r j * w (if Bt = 1 then 0 else p) j))) =
      Finset.sum (Finset.range df) (fun i =>
        Finset.sum (Finset.range dg) (fun j =>
          mergePair D A Bc l r i j *
            (v (if Bt = 1 then 0 else p) i * w (if Bt = 1 then 0 else p) j)))
    exact sum_pair_swap D df dg (fun u i => A l u i) (fun u j => Bc u r j)
      (fun i => v (if Bt = 1 then 0 else p) i)
      (fun j => w (if Bt = 1 then 0 else p) j)

/-- The contraction of an output contractable with the single-input
contractable on its right depends on the pair only through the merged
tensor of the olu,uri combine einsum. -/
lemma outL_mul (Bt od dlo Do dro dfo : Nat) (T S : Nat → Nat → Nat → Rat)
    (vv : Nat → Nat → Rat) :
    Ctr.mul (outCtr od dlo Do T) (siteCtr Bt Do dro dfo S vv) =
      Except.ok (Ctr.mk Bt od dlo dro (fun p w2 l r =>
        Finset.sum (Finset.range dfo) (fun i =>
          mergeOutL Do T S (if od = 1 then 0 else w2) l r i *
            vv (if Bt = 1 then 0 else p) i))) := by
  have c1 : (outCtr od dlo Do T).dr = (siteCtr Bt Do dro dfo S vv).dl := rfl
  have c2 : ¬((outCtr od dlo Do T).o ≠ 1 ∧ (siteCtr Bt Do dro dfo S vv).o ≠ 1) := by
    rintro ⟨_, h⟩
    exact h rfl
  have c3 : ¬((outCtr od dlo Do T).b ≠ 1 ∧ (siteCtr Bt Do dro dfo S vv).b ≠ 1 ∧
      (outCtr od dlo Do T).b ≠ (siteCtr Bt Do dro dfo S vv).b) := by
    rintro ⟨h, _, _⟩
    exact h rfl
  rw [Ctr.mul, if_neg (not_ne_iff.mpr c1), if_neg c2, if_neg c3]
  refine congrArg Except.ok ?_
  rw [Ctr.mk.injEq]
  refine ⟨rfl, ?_, rfl, rfl, ?_⟩
  · show (if od = 1 then 1 else od) = od
    by_cases h : od = 1
    · rw [if_pos h, h]
    · rw [if_neg h]
  · funext p w2 l r
    show Finset.sum (Finset.range Do) (fun u =>
        T (if od = 1 then 0 else w2) l u *
          Finset.sum (Finset.range dfo) (fun i =>
            S u r i * vv (if Bt = 1 then 0 else p) i)) =
      Finset.sum (Finset.range dfo) (fun i =>
        mergeOutL Do T S (if od = 1 then 0 else w2) l r i *
          vv (if Bt = 1 then 0 else p) i)
    exact sum_single_swap Do dfo (fun u => T (if od = 1 then 0 else w2) l u)
      (fun u i => S u r i) (fun i => vv (if Bt = 1 then 0 else p) i)

/-- The contraction of a single-input contractable with the output
contractable on its right depends on the pair only through the merged
tensor of the lui,our combine einsum. -/
lemma outR_mul (Bt od dlo Do dro dfo : Nat) (S T : Nat → Nat → Nat → Rat)
    (vv : Nat → Nat → Rat) :
    Ctr.mul (siteCtr Bt dlo Do dfo S vv) (outCtr od Do dro T) =
      Except.ok (Ctr.mk Bt od dlo dro (fun p w2 l r =>
        Finset.sum (Finset.range dfo) (fun i =>
          mergeOutR Do S T (if od = 1 then 0 else w2) l r i *
            vv (if Bt = 1 then 0 else p) i))) := by
  have c1 : (siteCtr Bt dlo Do dfo S vv).dr = (outCtr od Do dro T).dl := rfl
  have c2 : ¬((siteCtr Bt dlo Do dfo S vv).o ≠ 1 ∧ (outCtr od Do dro T).o ≠ 1) := by
    rintro ⟨h, _⟩
    exact h rfl
  have c3 : ¬((siteCtr Bt dlo Do dfo S vv).b ≠ 1 ∧ (outCtr od Do dro T).b ≠ 1 ∧
      (siteCtr Bt dlo Do dfo S vv).b ≠ (outCtr od Do dro T).b) := by
    rintro ⟨_, h, _⟩
    exact h rfl
  rw [Ctr.mul, if_neg (not_ne_iff.mpr c1), if_neg c2, if_neg c3]
  refine congrArg Except.ok ?_
  rw [Ctr.mk.injEq]
  refine ⟨?_, rfl, rfl, rfl, ?_⟩
  · show (if Bt = 1 then 1 else Bt) = Bt
    by_cases h : Bt = 1
    · rw [if_pos h, h]
    · rw [if_neg h]
  · funext p w2 l r
    show Finset.sum (Finset.range Do) (fun u =>
        (Finset.sum (Finset.range dfo) (fun i =>
          S l u i * vv (if Bt = 1 then 0 else p) i)) *
          T (if od = 1 then 0 else w2) u r) =
      Finset.sum (Finset.range dfo) (fun i =>
        mergeOutR Do S T (if od = 1 then 0 else w2) l r i *
          vv (if Bt = 1 then 0 else p) i)
    exact sum_single_swap_r Do dfo (fun u => T (if od = 1 then 0 else w2) u r)
      (fun u i => S l u i) (fun i => vv (if Bt = 1 then 0 else p) i)

/-- C6 (confirmed): merge/unmerge round-trip at cutoff 0 preserves the
forward output exactly.  The merge einsums of the source (slui,surj to
slrij at lines 639-640 for an even/odd pair of single-input cores,
olu,uri and lui,our at lines 535-539 for an output pair) produce the
merged tensors mergePair, mergeOutL and mergeOutR; unmerging with SVD
cutoff 0 and unbounded retained rank (svd_flex lives in utils.py,
absent from src/) is modelled as replacing the pair by any exact
factorization of that merged tensor, the defining property of the
untruncated SVD, with floating tolerance idealized to exact rational
equality.  The theorem states: (1) the contractables of a pair of
single-input cores contract to a value determined by the merged tensor
alone, so any exact refactorization leaves the pairwise contraction
unchanged; (2) hence the sequential reduction of any chain containing
the pair returns the same output, and succeeds before the cycle iff it
succeeds after; (3) and (4) the same for an output core merged with
the single-input core on its right or left; (5) the intervening
rescale (lines 502-512) multiplies the cores by scalar factors whose
product is one (the factors are exp(mean log norm - log norm), and the
deviations from the mean sum to zero), and any such rescale leaves the
sequential reduction unchanged. -/
theorem c6_round_trip (Bt dl D D2 dr df dg : Nat)
    (A Bc L R : Nat → Nat → Nat → Rat) (v w : Nat → Nat → Rat)
    (hfact : mergePair D A Bc = mergePair D2 L R) :
    (Ctr.mul (siteCtr Bt dl D df A v) (siteCtr Bt D dr dg Bc w) =
      Ctr.mul (siteCtr Bt dl D2 df L v) (siteCtr Bt D2 dr dg R w)) ∧
    (∀ (xs ys : List Ctr) (t : Ctr),
      reduceSeq (xs ++ siteCtr Bt dl D df A v :: siteCtr Bt D dr dg Bc w :: ys) =
        Except.ok t ↔
      reduceSeq (xs ++ siteCtr Bt dl D2 df L v :: siteCtr Bt D2 dr dg R w :: ys) =
        Except.ok t) ∧
    (∀ (od dlo Do Do2 dro dfo : Nat) (T S T2 S2 : Nat → Nat → Nat → Rat)
      (vv : Nat → Nat → Rat),
      mergeOutL Do T S = mergeOutL Do2 T2 S2 →
      Ctr.mul (outCtr od dlo Do T) (siteCtr Bt Do dro dfo S vv) =
        Ctr.mul (outCtr od dlo Do2 T2) (siteCtr Bt Do2 dro dfo S2 vv) ∧
      ∀ (xs ys : List Ctr) (t : Ctr),
        reduceSeq (xs ++ outCtr od dlo Do T :: siteCtr Bt Do dro dfo S vv :: ys) =
          Except.ok t ↔
        reduceSeq (xs ++ outCtr od dlo Do2 T2 :: siteCtr Bt Do2 dro dfo S2 vv :: ys) =
          Except.ok t) ∧
    (∀ (od dlo Do Do2 dro dfo : Nat) (S T S2 T2 : Nat → Nat → Nat → Rat)
      (vv : Nat → Nat → Rat),
      mergeOutR Do S T = mergeOutR Do2 S2 T2 →
      Ctr.mul (siteCtr Bt dlo Do dfo S vv) (outCtr od Do dro T) =
        Ctr.mul (siteCtr Bt dlo Do2 dfo S2 vv) (outCtr od Do2 dro T2) ∧
      ∀ (xs ys : List Ctr) (t : Ctr),
        reduceSeq (xs ++ siteCtr Bt dlo Do dfo S vv :: outCtr od Do dro T :: ys) =
          Except.ok t ↔
        reduceSeq (xs ++ siteCtr Bt dlo Do2 dfo S2 vv :: outCtr od Do2 dro T2 :: ys) =
          Except.ok t) ∧
    (∀ (qs : List Rat) (cs : List Ctr),
      qs.length = cs.length → qs.prod = 1 →
      reduceSeq (List.zipWith Ctr.smul qs cs) = reduceSeq cs) := by
  have hpair1 : Ctr.mul (siteCtr Bt dl D df A v) (siteCtr Bt D dr dg Bc w) =
      Ctr.mul (siteCtr Bt dl D2 df L v) (siteCtr Bt D2 dr dg R w) := by
    rw [siteCtr_mul, siteCtr_mul, hfact]
  refine ⟨hpair1, ?_, ?_, ?_, ?_⟩
  · intro xs ys t
    constructor
    · exact reduceSeq_pair_replace _ _ _ _ hpair1 xs ys t
    · exact reduceSeq_pair_replace _ _ _ _ hpair1.symm xs ys t
  · intro od dlo Do Do2 dro dfo T S T2 S2 vv hOL
    have hp : Ctr.mul (outCtr od dlo Do T) (siteCtr Bt Do dro dfo S vv) =
        Ctr.mul (outCtr od dlo Do2 T2) (siteCtr Bt Do2 dro dfo S2 vv) := by
      rw [outL_mul, outL_mul, hOL]
    refine ⟨hp, ?_⟩
    intro xs ys t
    constructor
    · exact reduceSeq_pair_replace _ _ _ _ hp xs ys t
    · exact reduceSeq_pair_replace _ _ _ _ hp.symm xs ys t
  · intro od dlo Do Do2 dro dfo S T S2 T2 vv hOR
    have hp : Ctr.mul (siteCtr Bt dlo Do dfo S vv) (outCtr od Do dro T) =
        Ctr.mul (siteCtr Bt dlo Do2 dfo S2 vv) (outCtr od Do2 dro T2) := by
      rw [outR_mul, outR_mul, hOR]
    refine ⟨hp, ?_⟩
    intro xs ys t
    constructor
    · exact reduceSeq_pair_replace _ _ _ _ hp xs ys t
    · exact reduceSeq_pair_replace _ _ _ _ hp.symm xs ys t
  · intro qs cs hlen hprod
    exact reduceSeq_smul_inv qs cs hlen hprod

/-- Witness for C6: the rank-one merged tensor with constant slices 2
and 3 over a shared bond of size 1 refactors exactly over a padded
bond of size 2, and the refactored pair contracts to the same
value. -/
theorem c6_round_trip_witness :
    (mergePair 1 (fun _ _ _ => (2 : Rat)) (fun _ _ _ => (3 : Rat)) =
      mergePair 2 (fun _ u _ => if u = 0 then (2 : Rat) else 0)
        (fun u _ _ => if u = 0 then (3 : Rat) else 0)) ∧
    Ctr.mul (siteCtr 2 1 1 1 (fun _ _ _ => (2 : Rat)) (fun _ _ => (1 : Rat)))
        (siteCtr 2 1 1 1 (fun _ _ _ => (3 : Rat)) (fun _ _ => (1 : Rat))) =
      Ctr.mul (siteCtr 2 1 2 1 (fun _ u _ => if u = 0 then (2 : Rat) else 0)
          (fun _ _ => (1 : Rat)))
        (siteCtr 2 2 1 1 (fun u _ _ => if u = 0 then (3 : Rat) else 0)
          (fun _ _ => (1 : Rat))) := by
  have hf : mergePair 1 (fun _ _ _ => (2 : Rat)) (fun _ _ _ => (3 : Rat)) =
      mergePair 2 (fun _ u _ => if u = 0 then (2 : Rat) else 0)
        (fun u _ _ => if u = 0 then (3 : Rat) else 0) := by
    funext l r i j
    simp [mergePair, Finset.sum_range_succ, Finset.sum_range_one]
  exact ⟨hf, (c6_round_trip 2 1 1 2 1 1 1 (fun _ _ _ => (2 : Rat))
    (fun _ _ _ => (3 : Rat)) (fun _ u _ => if u = 0 then (2 : Rat) else 0)
    (fun u _ _ => if u = 0 then (3 : Rat) else 0)
    (fun _ _ => (1 : Rat)) (fun _ _ => (1 : Rat)) hf).1⟩

end TorchMPS
